import Mathlib

/-!
# Web3_DeFi backend: event decoding, publish/subscribe registry, broadcast

A shallow embedding of `backend/events/listener.go` and of
`Handlers.broadcastToClients` from `backend/handlers/handlers.go`.

Modelling conventions.
* A Go call either returns or panics: `GoResult`.
* A Go `map[K]V` is an association list with unique keys (`GoMap`); only
  lookup, assignment and `delete` are used by the code.
* A Go `[]byte` is its backing array from the slice start (whose length is
  the capacity) together with the slice length: slicing `s[a:b]` is checked
  against the capacity, indexing `s[i]` against the length.
* Channels live in a heap indexed by identity; `make(chan Event, 10)`
  allocates the next index.
-/

namespace Web3DeFi

/-! ## Go runtime layer -/

/-- Run-time panics that the modelled code can raise. -/
inductive Panic where
  | indexOutOfRange (i len : Nat)
  | sliceBoundsOutOfRange (hi cap : Nat)
  | sendOnClosedChannel
  | closeOfClosedChannel
  | closeOfNilChannel
deriving DecidableEq, Repr

/-- Outcome of a Go call: it returns a value or it panics. -/
inductive GoResult (α : Type) where
  | returned (a : α)
  | panicked (p : Panic)
deriving DecidableEq, Repr

/-- Sequencing of Go statements: a panic aborts what follows. -/
def GoResult.bind {α β : Type} (r : GoResult α) (f : α → GoResult β) : GoResult β :=
  match r with
  | .returned a => f a
  | .panicked p => .panicked p

instance : Monad GoResult where
  pure := GoResult.returned
  bind := GoResult.bind

/-- One octet. -/
abbrev Byte := Fin 256

/-- A Go byte slice: `arr` is the backing array seen from the slice start
(so `arr.length` is the capacity) and `len` the slice length. -/
structure ByteSlice where
  arr : List Byte
  len : Nat
  hlen : len ≤ arr.length
deriving DecidableEq, Repr

/-- The slice whose capacity equals its length. -/
def ByteSlice.ofList (l : List Byte) : ByteSlice := ⟨l, l.length, le_refl _⟩

/-- Go `s[lo:hi]` for constant `lo ≤ hi`: checked against the capacity. -/
def ByteSlice.slice (s : ByteSlice) (lo hi : Nat) : GoResult (List Byte) :=
  if hi ≤ s.arr.length then .returned ((s.arr.take hi).drop lo)
  else .panicked (.sliceBoundsOutOfRange hi s.arr.length)

/-- Go `s[i]`: checked against the length. -/
def ByteSlice.index (s : ByteSlice) (i : Nat) : GoResult Byte :=
  if i < s.len then
    match s.arr[i]? with
    | some b => .returned b
    | none => .panicked (.indexOutOfRange i s.len)
  else .panicked (.indexOutOfRange i s.len)

/-- Go `xs[i]` on a slice of hashes or other values. -/
def goIndex {α : Type} (xs : List α) (i : Nat) : GoResult α :=
  match xs[i]? with
  | some x => .returned x
  | none => .panicked (.indexOutOfRange i xs.length)

/-- A Go map as an association list; keys are unique. -/
abbrev GoMap (κ α : Type) := List (κ × α)

/-- Go `m[k]` with the comma-ok form. -/
def GoMap.get {κ α : Type} [DecidableEq κ] (m : GoMap κ α) (k : κ) : Option α :=
  match m with
  | [] => none
  | (k', v) :: rest => if k' = k then some v else GoMap.get rest k

/-- Go `m[k] = v`. -/
def GoMap.set {κ α : Type} [DecidableEq κ] (m : GoMap κ α) (k : κ) (v : α) : GoMap κ α :=
  match m with
  | [] => [(k, v)]
  | (k', v') :: rest => if k' = k then (k, v) :: rest else (k', v') :: GoMap.set rest k v

/-- Go `delete(m, k)`. -/
def GoMap.delete {κ α : Type} [DecidableEq κ] (m : GoMap κ α) (k : κ) : GoMap κ α :=
  m.filter (fun p => decide (p.1 ≠ k))

/-- The keys of a map. -/
def GoMap.keys {κ α : Type} (m : GoMap κ α) : List κ := m.map Prod.fst

/-! ## go-ethereum and encoding/hex helpers used by the decoder -/

/-- The type `common.Hash`: 32 bytes. -/
structure Hash where
  bytes : List Byte
  size : bytes.length = 32
deriving DecidableEq, Repr

/-- The type `common.Address`: 20 bytes. -/
structure Address where
  bytes : List Byte
  size : bytes.length = 20
deriving DecidableEq, Repr

/-- The digit table of `encoding/hex`. -/
def hextable : List Char := "0123456789abcdef".data

/-- Digit for a nibble. -/
def hexDigit (n : Nat) : Char := hextable.getD n '0'

/-- Go `hex.EncodeToString`: two lowercase digits per byte, high nibble first. -/
def hexEncode : List Byte → List Char
  | [] => []
  | b :: bs => hexDigit (b.val / 16) :: hexDigit (b.val % 16) :: hexEncode bs

/-- Go `hexutil.Encode`, which is what `Hash.Hex` returns. -/
def Hash.Hex (h : Hash) : String := String.mk ('0' :: 'x' :: hexEncode h.bytes)

/-- Value of one hex digit, either case. -/
def fromHexChar (c : Char) : Option Nat :=
  if '0' ≤ c ∧ c ≤ '9' then some (c.toNat - '0'.toNat)
  else if 'a' ≤ c ∧ c ≤ 'f' then some (c.toNat - 'a'.toNat + 10)
  else if 'A' ≤ c ∧ c ≤ 'F' then some (c.toNat - 'A'.toNat + 10)
  else none

/-- Go `common.Hex2Bytes`: `hex.DecodeString` with the error dropped, which
leaves the bytes decoded before the first invalid digit or dangling digit. -/
def Hex2Bytes : List Char → List Byte
  | p :: q :: rest =>
    match fromHexChar p, fromHexChar q with
    | some a, some b => Fin.ofNat (a * 16 + b) :: Hex2Bytes rest
    | _, _ => []
  | _ => []

/-- The test `has0xPrefix` of go-ethereum. -/
def has0xPrefix (s : List Char) : Bool :=
  match s with
  | c0 :: c1 :: _ => decide (c0 = '0') && (decide (c1 = 'x') || decide (c1 = 'X'))
  | _ => false

/-- Go `common.FromHex`. -/
def FromHex (s : String) : List Byte :=
  let s1 := if has0xPrefix s.data then s.data.drop 2 else s.data
  let s2 := if s1.length % 2 = 1 then '0' :: s1 else s1
  Hex2Bytes s2

/-- Go `Address.SetBytes` on the zero address: keep the last 20 bytes, left-pad
with zeros. -/
def BytesToAddress (b : List Byte) : Address :=
  let b1 := if b.length > 20 then b.drop (b.length - 20) else b
  ⟨List.replicate (20 - b1.length) 0 ++ b1, by
    simp only [List.length_append, List.length_replicate]
    have : b1.length ≤ 20 := by
      show (if b.length > 20 then b.drop (b.length - 20) else b).length ≤ 20
      split
      · simp only [List.length_drop]; omega
      · omega
    omega⟩

/-- Go `common.HexToAddress`. -/
def HexToAddress (s : String) : Address := BytesToAddress (FromHex s)

/-- Go `new(big.Int).SetBytes(b)`: the value is accumulated most significant
byte first. -/
def SetBytes (b : List Byte) : Int :=
  Int.ofNat (b.foldl (fun acc x => acc * 256 + x.val) 0)

/-! ## events: data model -/

/-- Dynamic values stored in `Event.Data` (`map[string]any`). -/
inductive Value where
  | str (s : String)
  | bigInt (n : Int)
  | bool (b : Bool)
deriving DecidableEq, Repr

def EventLiquidityAdded : String := "LiquidityAdded"

def EventLiquidityRemoved : String := "LiquidityRemoved"

def EventSwap : String := "Swap"

/-- The `Event` struct; `Typ` is the Go field `Type`. -/
structure Event where
  Typ : String
  TxHash : String
  BlockHash : String
  BlockNum : Nat
  Data : GoMap String Value
deriving DecidableEq, Repr

/-- The fields of `types.Log` that the listener reads. -/
structure Log where
  Topics : List Hash
  Data : ByteSlice
  BlockNumber : Nat
  TxHash : Hash
  BlockHash : Hash
deriving DecidableEq, Repr

def sigLiquidityAdded : String :=
  "0x36a0671bb3af54336d9479c0a388118bd9d7b0d47988b8a5a53b5719b5d24c3a"

def sigLiquidityRemoved : String :=
  "0x0dcd8b42a760e2e564bb9a81ae33dae2c3402eab720d2594fbecfa74ba301211"

def sigSwap : String :=
  "0xeb869a7dee7324455c86f9a2d2c6f3ddd4b4bc9b6001a6ecd225ed27baceb9d3"

/-- Go `event.Data[k] = v`. -/
def Event.setData (e : Event) (k : String) (v : Value) : Event :=
  { e with Data := GoMap.set e.Data k v }

/-- Method `EventListener.parseEvent`. The pair is Go's `(Event, error)`; the error
is `none` for `nil`. `addressHex` is `common.Address.Hex` (the EIP-55
rendering of go-ethereum), which the decoder applies to the address it
extracts. -/
def parseEvent (addressHex : Address → String) (vLog : Log) :
    GoResult (Event × Option String) := do
  let event : Event :=
    { Typ := "", TxHash := vLog.TxHash.Hex, BlockHash := vLog.BlockHash.Hex,
      BlockNum := vLog.BlockNumber, Data := [] }
  let t0 ← goIndex vLog.Topics 0
  if t0.Hex = sigLiquidityAdded then
    let event := { event with Typ := EventLiquidityAdded }
    let t1 ← goIndex vLog.Topics 1
    let event := event.setData "provider" (.str (addressHex (HexToAddress t1.Hex)))
    let d0 ← vLog.Data.slice 0 32
    let event := event.setData "amountA" (.bigInt (SetBytes d0))
    let d1 ← vLog.Data.slice 32 64
    let event := event.setData "amountB" (.bigInt (SetBytes d1))
    let d2 ← vLog.Data.slice 64 96
    let event := event.setData "liquidity" (.bigInt (SetBytes d2))
    return (event, none)
  else if t0.Hex = sigLiquidityRemoved then
    let event := { event with Typ := EventLiquidityRemoved }
    let t1 ← goIndex vLog.Topics 1
    let event := event.setData "provider" (.str (addressHex (HexToAddress t1.Hex)))
    let d0 ← vLog.Data.slice 0 32
    let event := event.setData "amountA" (.bigInt (SetBytes d0))
    let d1 ← vLog.Data.slice 32 64
    let event := event.setData "amountB" (.bigInt (SetBytes d1))
    let d2 ← vLog.Data.slice 64 96
    let event := event.setData "liquidity" (.bigInt (SetBytes d2))
    return (event, none)
  else if t0.Hex = sigSwap then
    let event := { event with Typ := EventSwap }
    let t1 ← goIndex vLog.Topics 1
    let event := event.setData "sender" (.str (addressHex (HexToAddress t1.Hex)))
    let d0 ← vLog.Data.slice 0 32
    let event := event.setData "amountIn" (.bigInt (SetBytes d0))
    let d1 ← vLog.Data.slice 32 64
    let event := event.setData "amountOut" (.bigInt (SetBytes d1))
    let b ← vLog.Data.index 95
    let event := event.setData "isAToB" (.bool (decide (b.val = 1)))
    return (event, none)
  else
    return (event, some ("unknown event type: " ++ t0.Hex))

/-- Big-endian value of a byte string, by positional weight (the reading the
specification gives to every 32-byte slot). -/
def bigEndian : List Byte → Nat
  | [] => 0
  | b :: rest => b.val * 256 ^ rest.length + bigEndian rest

/-- The logical contents of a slice: its first `len` bytes. -/
def ByteSlice.toList (s : ByteSlice) : List Byte := s.arr.take s.len

/-- The bytes `data[lo:hi]` of the logical contents of a slice. -/
def ByteSlice.range (s : ByteSlice) (lo hi : Nat) : List Byte := (s.toList.take hi).drop lo

/-- The address held in the low 20 bytes of a 32-byte topic. -/
def Hash.low20 (h : Hash) : Address :=
  ⟨h.bytes.drop 12, by simp [h.size]⟩

/-- A first topic that matches none of the three known signatures. -/
def unknownSignature (t0 : Hash) : Prop :=
  t0.Hex ≠ sigLiquidityAdded ∧ t0.Hex ≠ sigLiquidityRemoved ∧ t0.Hex ≠ sigSwap

instance (t0 : Hash) : Decidable (unknownSignature t0) := by
  unfold unknownSignature; infer_instance

/-! ## events: publish/subscribe registry -/

/-- A buffered channel of events. -/
structure Chan where
  cap : Nat
  buf : List Event
  closed : Bool
deriving DecidableEq, Repr

/-- The listener state: the `subscribers` map of the Go struct (channels are
named by identity) and the channels allocated so far, indexed by identity. -/
structure EventListener where
  subscribers : GoMap String (List Nat)
  chans : List Chan
deriving DecidableEq, Repr

/-- The registry part of `NewEventListener`: an empty map, no channel yet. -/
def NewEventListener : EventListener := { subscribers := [], chans := [] }

/-- Go `el.subscribers[t]` read as a slice: a missing key reads as nil. -/
def EventListener.subs (el : EventListener) (t : String) : List Nat :=
  (GoMap.get el.subscribers t).getD []

/-- Method `EventListener.Subscribe`: returns the new state and the new channel. -/
def Subscribe (el : EventListener) (eventType : String) : EventListener × Nat :=
  let ch := el.chans.length
  let chans := el.chans ++ [{ cap := 10, buf := [], closed := false }]
  ({ subscribers := GoMap.set el.subscribers eventType (el.subs eventType ++ [ch]),
     chans := chans }, ch)

/-- Index of the first element equal to `ch`: the search loop of
`Unsubscribe`, which breaks at the first hit. -/
def firstIndex (ch : Nat) : List Nat → Option Nat
  | [] => none
  | c :: cs => if c = ch then some 0 else (firstIndex ch cs).map (fun i => i + 1)

/-- Go `close(ch)`. -/
def closeChan (chans : List Chan) (ch : Nat) : GoResult (List Chan) :=
  match chans[ch]? with
  | none => .panicked .closeOfNilChannel
  | some c =>
    if c.closed then .panicked .closeOfClosedChannel
    else .returned (chans.set ch { c with closed := true })

/-- Method `EventListener.Unsubscribe`. -/
def Unsubscribe (el : EventListener) (eventType : String) (ch : Nat) :
    GoResult EventListener :=
  match GoMap.get el.subscribers eventType with
  | some chans =>
    match firstIndex ch chans with
    | some i =>
      let subscribers :=
        GoMap.set el.subscribers eventType (chans.take i ++ chans.drop (i + 1))
      match closeChan el.chans ch with
      | .returned heap => .returned { subscribers := subscribers, chans := heap }
      | .panicked p => .panicked p
    | none => .returned el
  | none => .returned el

/-- How a call that sends on channels ends: it completes, it stalls on a
full (or nil) channel, or it panics. -/
inductive Status where
  | done
  | blocked (ch : Nat)
  | panicked (p : Panic)
deriving DecidableEq, Repr

/-- Result of a run of sends: the channels afterwards, the channels on
which the event was enqueued (oldest first), and how the run ended. -/
structure SendRun where
  chans : List Chan
  trace : List Nat
  status : Status
deriving DecidableEq, Repr

/-- The loop `for _, ch := range chans { ch <- event }`, started with the
heap `heap` and the sends `tr` already made. -/
def sendAll (event : Event) : List Nat → List Chan → List Nat → SendRun
  | [], heap, tr => { chans := heap, trace := tr, status := .done }
  | ch :: rest, heap, tr =>
    match heap[ch]? with
    | none => { chans := heap, trace := tr, status := .blocked ch }
    | some c =>
      if c.closed then
        { chans := heap, trace := tr, status := .panicked .sendOnClosedChannel }
      else if c.buf.length < c.cap then
        sendAll event rest (heap.set ch { c with buf := c.buf ++ [event] }) (tr ++ [ch])
      else { chans := heap, trace := tr, status := .blocked ch }

/-- Method `EventListener.publish`. The subscriber map is only read. -/
def publish (el : EventListener) (event : Event) : SendRun :=
  let r1 : SendRun :=
    match GoMap.get el.subscribers event.Typ with
    | some chans => sendAll event chans el.chans []
    | none => { chans := el.chans, trace := [], status := .done }
  match r1.status with
  | .done =>
    match GoMap.get el.subscribers "*" with
    | some chans => sendAll event chans r1.chans r1.trace
    | none => r1
  | _ => r1

/-- A consumer receives from channel `ch`: the oldest buffered event leaves. -/
def recv (el : EventListener) (ch : Nat) : EventListener :=
  match el.chans[ch]? with
  | none => el
  | some c => { el with chans := el.chans.set ch { c with buf := c.buf.tail } }

/-- What the `select` of the listener loop picks at one iteration. -/
inductive StreamItem where
  | ctxDone
  | subErr (err : String)
  | log (vLog : Log)
deriving DecidableEq, Repr

/-- How `Start` ends on a finite stream: it returns an error or nil, it is
left waiting for the next item, it stalls inside `publish`, or it panics. -/
inductive StartOutcome where
  | returned (err : Option String)
  | waiting
  | blocked (ch : Nat)
  | panicked (p : Panic)
deriving DecidableEq, Repr

/-- Result of a run of `Start`: the listener afterwards, the events whose
`publish` call completed (oldest first), and how the run ended. -/
structure StartRun where
  el : EventListener
  published : List Event
  outcome : StartOutcome
deriving DecidableEq, Repr

/-- The `for { select { ... } }` loop of `Start`. -/
def startLoop (addressHex : Address → String) :
    List StreamItem → EventListener → List Event → StartRun
  | [], el, pub => { el := el, published := pub, outcome := .waiting }
  | .ctxDone :: _, el, pub => { el := el, published := pub, outcome := .returned none }
  | .subErr err :: _, el, pub =>
    { el := el, published := pub, outcome := .returned (some err) }
  | .log vLog :: rest, el, pub =>
    match parseEvent addressHex vLog with
    | .panicked p => { el := el, published := pub, outcome := .panicked p }
    | .returned (_, some _) => startLoop addressHex rest el pub
    | .returned (event, none) =>
      let r := publish el event
      match r.status with
      | .done => startLoop addressHex rest { el with chans := r.chans } (pub ++ [event])
      | .blocked ch =>
        { el := { el with chans := r.chans }, published := pub, outcome := .blocked ch }
      | .panicked p =>
        { el := { el with chans := r.chans }, published := pub, outcome := .panicked p }

/-- Method `EventListener.Start`: `subscribeErr` is the error of
`SubscribeFilterLogs` (`none` for nil), `stream` what the loop then sees. -/
def Start (addressHex : Address → String) (el : EventListener)
    (subscribeErr : Option String) (stream : List StreamItem) : StartRun :=
  match subscribeErr with
  | some err =>
    { el := el, published := [],
      outcome := .returned (some ("failed to subscribe to logs: " ++ err)) }
  | none => startLoop addressHex stream el []

/-- The call returned, as opposed to panicking. -/
def GoResult.Returns {α : Type} (r : GoResult α) : Prop :=
  match r with
  | .returned _ => True
  | .panicked _ => False

instance {α : Type} (r : GoResult α) : Decidable r.Returns := by
  unfold GoResult.Returns; split <;> infer_instance

/-- Every channel registered under some topic. -/
def EventListener.registered (el : EventListener) : List Nat :=
  (el.subscribers.map Prod.snd).foldr (fun l acc => l ++ acc) []

/-- The events of the records that decode without error, in record order. -/
def decoded (addressHex : Address → String) (records : List Log) : List Event :=
  records.filterMap (fun r =>
    match parseEvent addressHex r with
    | .returned (event, none) => some event
    | _ => none)

/-- One operation on the listener state. -/
inductive Step : EventListener → EventListener → Prop where
  | subscribe (el : EventListener) (t : String) : Step el (Subscribe el t).1
  | unsubscribe (el el' : EventListener) (t : String) (ch : Nat) :
    Unsubscribe el t ch = .returned el' → Step el el'
  | publish (el : EventListener) (e : Event) :
    (publish el e).status = .done → Step el { el with chans := (publish el e).chans }
  | recv (el : EventListener) (ch : Nat) : Step el (recv el ch)

/-- States the listener can be in: those reached from the fresh listener by
subscribing, unsubscribing, publishing and consumers receiving. -/
def Reachable (el : EventListener) : Prop := Relation.ReflTransGen Step NewEventListener el

/-- The channels `publish` sends on: the list under the event type, then the
wildcard list. -/
def targets (el : EventListener) (e : Event) : List Nat := el.subs e.Typ ++ el.subs "*"

/-- Channel `c` is allocated and its queue has room for `n` more events. -/
def roomAt (heap : List Chan) (c n : Nat) : Prop :=
  match heap[c]? with
  | some ch => ch.buf.length + n ≤ ch.cap
  | none => False

instance (heap : List Chan) (c n : Nat) : Decidable (roomAt heap c n) := by
  unfold roomAt; split <;> infer_instance

/-- Every queue that `publish el e` sends on has room for all the copies it
is sent. -/
def HasRoom (el : EventListener) (e : Event) : Prop :=
  ∀ c ∈ targets el e, roomAt el.chans c ((targets el e).count c)

instance (el : EventListener) (e : Event) : Decidable (HasRoom el e) := by
  unfold HasRoom; infer_instance

/-- A call of `Subscribe` or `Unsubscribe`. -/
inductive Op where
  | subscribe (t : String)
  | unsubscribe (t : String) (ch : Nat)
deriving DecidableEq, Repr

/-- Runs a sequence of calls; the second component logs each `Subscribe`
call, in call order, as the topic with the channel returned. -/
def runOps : List Op → EventListener × List (String × Nat) →
    GoResult (EventListener × List (String × Nat))
  | [], st => .returned st
  | .subscribe t :: ops, (el, log) =>
    runOps ops ((Subscribe el t).1, log ++ [(t, (Subscribe el t).2)])
  | .unsubscribe t ch :: ops, (el, log) =>
    match Unsubscribe el t ch with
    | .returned el' => runOps ops (el', log)
    | .panicked p => .panicked p

/-- The channels returned by the `Subscribe(t)` calls of a log, in call order. -/
def subscribeOrder (t : String) (log : List (String × Nat)) : List Nat :=
  (log.filter (fun p => decide (p.1 = t))).map Prod.snd

/-! ## handlers: broadcast to the live connections -/

/-- The connection set of `Handlers` (`map[*websocket.Conn]bool`);
connections are named by identity. -/
structure Handlers where
  clients : GoMap Nat Bool
deriving DecidableEq, Repr

/-- Result of one broadcast: the connection set afterwards, the connections
on which `WriteJSON` was called and those on which `Close` was called, both
oldest first. -/
structure BroadcastRun where
  clients : GoMap Nat Bool
  sent : List Nat
  closed : List Nat
deriving DecidableEq, Repr

/-- The body of `for client := range h.clients`, over the keys in the order
the runtime produces them. `writeJSON` is the outcome of
`client.WriteJSON(event)`: `none` for a nil error. An entry deleted before
it is reached is not produced. -/
def broadcastLoop (writeJSON : Nat → Event → Option String) (event : Event) :
    List Nat → BroadcastRun → BroadcastRun
  | [], r => r
  | client :: rest, r =>
    match GoMap.get r.clients client with
    | none => broadcastLoop writeJSON event rest r
    | some _ =>
      match writeJSON client event with
      | none => broadcastLoop writeJSON event rest { r with sent := r.sent ++ [client] }
      | some _ =>
        broadcastLoop writeJSON event rest
          { clients := GoMap.delete r.clients client, sent := r.sent ++ [client],
            closed := r.closed ++ [client] }

/-- Method `Handlers.broadcastToClients`; `order` is the order in which the runtime
ranges over the map. -/
def broadcastToClients (writeJSON : Nat → Event → Option String) (h : Handlers)
    (order : List Nat) (event : Event) : BroadcastRun :=
  broadcastLoop writeJSON event order { clients := h.clients, sent := [], closed := [] }

/-- Well-formed listener states: every registered channel is allocated, open
and of capacity 10, no list holds a channel twice, and no channel is in two
lists. -/
def WF (el : EventListener) : Prop :=
  (∀ t, ∀ c ∈ el.subs t, ∃ ch, el.chans[c]? = some ch ∧ ch.closed = false ∧ ch.cap = 10) ∧
  (∀ t, (el.subs t).Nodup) ∧
  (∀ t1 t2, t1 ≠ t2 → ∀ c ∈ el.subs t1, c ∉ el.subs t2)

/-- Channel `s` is allocated, closed and registered under no topic. -/
def Detached (el : EventListener) (s : Nat) : Prop :=
  (∃ ch, el.chans[s]? = some ch ∧ ch.closed = true) ∧ ∀ t, s ∉ el.subs t

/-! ## Fixtures -/

/-- A stand-in for `common.Address.Hex` in the fixtures: lowercase hex
without the EIP-55 casing. -/
def plainHex (a : Address) : String := String.mk ('0' :: 'x' :: hexEncode a.bytes)

/-- The hash whose 32 bytes all equal `b`. -/
def hashOfByte (b : Byte) : Hash := ⟨List.replicate 32 b, by simp⟩

/-- The 32-byte big-endian word of a value below 256. -/
def word (b : Byte) : List Byte := List.replicate 31 0 ++ [b]

def liquidityAddedTopic : Hash :=
  ⟨[0x36, 0xa0, 0x67, 0x1b, 0xb3, 0xaf, 0x54, 0x33,
    0x6d, 0x94, 0x79, 0xc0, 0xa3, 0x88, 0x11, 0x8b,
    0xd9, 0xd7, 0xb0, 0xd4, 0x79, 0x88, 0xb8, 0xa5,
    0xa5, 0x3b, 0x57, 0x19, 0xb5, 0xd2, 0x4c, 0x3a], by decide⟩

def liquidityRemovedTopic : Hash :=
  ⟨[0x0d, 0xcd, 0x8b, 0x42, 0xa7, 0x60, 0xe2, 0xe5,
    0x64, 0xbb, 0x9a, 0x81, 0xae, 0x33, 0xda, 0xe2,
    0xc3, 0x40, 0x2e, 0xab, 0x72, 0x0d, 0x25, 0x94,
    0xfb, 0xec, 0xfa, 0x74, 0xba, 0x30, 0x12, 0x11], by decide⟩

def swapTopic : Hash :=
  ⟨[0xeb, 0x86, 0x9a, 0x7d, 0xee, 0x73, 0x24, 0x45,
    0x5c, 0x86, 0xf9, 0xa2, 0xd2, 0xc6, 0xf3, 0xdd,
    0xd4, 0xb4, 0xbc, 0x9b, 0x60, 0x01, 0xa6, 0xec,
    0xd2, 0x25, 0xed, 0x27, 0xba, 0xce, 0xb9, 0xd3], by decide⟩

/-- A topic holding the address `0xaaaa…aa` in its low 20 bytes. -/
def providerTopic : Hash := ⟨List.replicate 12 0 ++ List.replicate 20 0xaa, by decide⟩

/-- A LiquidityAdded record: provider `0xaaaa…aa`, amountA 100, amountB 200,
liquidity 141. -/
def liquidityAddedFixture : Log :=
  { Topics := [liquidityAddedTopic, providerTopic],
    Data := ByteSlice.ofList (word 100 ++ word 200 ++ word 141),
    BlockNumber := 7, TxHash := hashOfByte 0x11, BlockHash := hashOfByte 0x22 }

/-- A Swap record with direction byte `dir` at offset 95. -/
def swapFixture (dir : Byte) : Log :=
  { Topics := [swapTopic, providerTopic],
    Data := ByteSlice.ofList (word 100 ++ word 200 ++ word dir),
    BlockNumber := 8, TxHash := hashOfByte 0x33, BlockHash := hashOfByte 0x44 }

/-- A record whose first topic is no known signature. -/
def unknownFixture : Log :=
  { Topics := [hashOfByte 0x01], Data := ByteSlice.ofList [],
    BlockNumber := 9, TxHash := hashOfByte 0x55, BlockHash := hashOfByte 0x66 }

/-- A record without topics (an anonymous event without indexed fields). -/
def noTopicFixture : Log :=
  { Topics := [], Data := ByteSlice.ofList (word 1),
    BlockNumber := 10, TxHash := hashOfByte 0x77, BlockHash := hashOfByte 0x88 }

/-- A Swap signature with no second topic. -/
def noSecondTopicFixture : Log :=
  { Topics := [swapTopic], Data := ByteSlice.ofList (word 100 ++ word 200 ++ word 1),
    BlockNumber := 11, TxHash := hashOfByte 0x77, BlockHash := hashOfByte 0x88 }

/-- A LiquidityAdded signature with only 10 data bytes. -/
def shortDataFixture : Log :=
  { Topics := [liquidityAddedTopic, providerTopic],
    Data := ByteSlice.ofList (List.replicate 10 0),
    BlockNumber := 12, TxHash := hashOfByte 0x77, BlockHash := hashOfByte 0x88 }

/-- The event that `swapFixture 1` decodes to under `plainHex`. -/
def swapEvent : Event :=
  { Typ := "Swap",
    TxHash := "0x3333333333333333333333333333333333333333333333333333333333333333",
    BlockHash := "0x4444444444444444444444444444444444444444444444444444444444444444",
    BlockNum := 8,
    Data := [("sender", .str "0xaaaaaaaaaaaaaaaaaaaaaaaaaaaaaaaaaaaaaaaa"),
             ("amountIn", .bigInt 100), ("amountOut", .bigInt 200), ("isAToB", .bool true)] }

/-- A listener with a wildcard subscriber (channel 0) and a Swap subscriber
(channel 1). -/
def twoSubscribers : EventListener :=
  (Subscribe (Subscribe NewEventListener "*").1 "Swap").1

/-- The listener with one wildcard subscriber (channel 0). -/
def wildcardOnly : EventListener := (Subscribe NewEventListener "*").1

/-- Two live connections, A = 1 and B = 2. -/
def twoClients : Handlers := { clients := [(1, true), (2, true)] }

/-- Send outcomes under which connection 1 fails and every other succeeds. -/
def failFirst (client : Nat) (_ : Event) : Option String :=
  if client = 1 then some "write: broken pipe" else none

/-- Publishes `e` up to `n` times with no consumer receiving in between,
stopping at the first call that does not complete. -/
def publishTimes (e : Event) : Nat → EventListener → EventListener
  | 0, el => el
  | n + 1, el =>
    match (publish el e).status with
    | .done => publishTimes e n { el with chans := (publish el e).chans }
    | _ => el

/-- A listener whose only subscriber, channel 0 under Swap, has a full
queue: ten Swap events were published and none received. -/
def fullSwapListener : EventListener :=
  publishTimes swapEvent 10 (Subscribe NewEventListener "Swap").1

/-- A listener whose wildcard subscriber (channel 0) has a full queue and to
which a Swap subscriber (channel 1) was then added. -/
def fullWildcardListener : EventListener :=
  (Subscribe (publishTimes swapEvent 10 wildcardOnly) "Swap").1

/-- An event whose type is the wildcard topic itself. -/
def starEvent : Event :=
  { Typ := "*", TxHash := "", BlockHash := "", BlockNum := 0, Data := [] }

/-! ## Decoder: library facts -/

theorem fromHexChar_hexDigit : ∀ n : Fin 16, fromHexChar (hexDigit n.val) = some n.val := by
  decide

theorem hexEncode_length (bs : List Byte) : (hexEncode bs).length = 2 * bs.length := by
  induction bs with
  | nil => rfl
  | cons b bs ih => simp [hexEncode, ih]; omega

/-- Decoding the hex rendering of a byte string gives the bytes back. -/
theorem Hex2Bytes_hexEncode (bs : List Byte) : Hex2Bytes (hexEncode bs) = bs := by
  induction bs with
  | nil => rfl
  | cons b bs ih =>
    have h1 := fromHexChar_hexDigit ⟨b.val / 16, by omega⟩
    have h2 := fromHexChar_hexDigit ⟨b.val % 16, by omega⟩
    simp only at h1 h2
    simp only [hexEncode, Hex2Bytes, h1, h2, ih]
    congr 1
    apply Fin.ext
    simp only [Fin.ofNat, Fin.val_mk]
    omega

theorem FromHex_Hex (h : Hash) : FromHex h.Hex = h.bytes := by
  have hl := hexEncode_length h.bytes
  simp only [FromHex, Hash.Hex, has0xPrefix, decide_True, Bool.true_or, Bool.and_self,
    if_true, List.drop_succ_cons, List.drop_zero]
  rw [if_neg (by omega)]
  exact Hex2Bytes_hexEncode h.bytes

/-- The address the decoder extracts from a topic is its low 20 bytes. -/
theorem HexToAddress_Hex (h : Hash) : HexToAddress h.Hex = h.low20 := by
  have hs := h.size
  simp only [HexToAddress, FromHex_Hex, BytesToAddress, Hash.low20, Address.mk.injEq]
  rw [if_pos (by omega)]
  simp [hs]

theorem foldl_bigEndian (bs : List Byte) (acc : Nat) :
    bs.foldl (fun a x => a * 256 + x.val) acc = acc * 256 ^ bs.length + bigEndian bs := by
  induction bs generalizing acc with
  | nil => simp [bigEndian]
  | cons b bs ih =>
    simp only [List.foldl_cons, ih, bigEndian, List.length_cons, pow_succ]
    ring

/-- The integer `SetBytes` builds is the big-endian value of the bytes. -/
theorem SetBytes_eq_bigEndian (bs : List Byte) : SetBytes bs = Int.ofNat (bigEndian bs) := by
  simp [SetBytes, foldl_bigEndian]

theorem ByteSlice.slice_of_le (s : ByteSlice) (lo hi : Nat) (h : hi ≤ s.len) :
    s.slice lo hi = .returned (s.range lo hi) := by
  have := s.hlen
  simp only [ByteSlice.slice, ByteSlice.range, ByteSlice.toList]
  rw [if_pos (by omega), List.take_take, Nat.min_eq_left h]

theorem ByteSlice.index_of_lt (s : ByteSlice) (i : Nat) (h : i < s.len) :
    ∃ b, s.toList[i]? = some b ∧ s.index i = .returned b := by
  have hl := s.hlen
  have hi : i < s.arr.length := by omega
  refine ⟨s.arr[i], ?_, ?_⟩
  · simp only [ByteSlice.toList]
    rw [List.getElem?_take_of_lt h, List.getElem?_eq_getElem hi]
  · simp only [ByteSlice.index, if_pos h]
    rw [List.getElem?_eq_getElem hi]

@[simp] theorem GoResult.returned_bind {α β : Type} (a : α) (f : α → GoResult β) :
    (GoResult.returned a >>= f) = f a := rfl

@[simp] theorem GoResult.panicked_bind {α β : Type} (p : Panic) (f : α → GoResult β) :
    (GoResult.panicked p >>= f) = GoResult.panicked p := rfl

@[simp] theorem GoResult.pure_eq {α : Type} (a : α) :
    (pure a : GoResult α) = GoResult.returned a := rfl

theorem sigs_distinct : sigLiquidityAdded ≠ sigLiquidityRemoved ∧
    sigLiquidityAdded ≠ sigSwap ∧ sigLiquidityRemoved ≠ sigSwap := by decide

/-! ## Decoder: claims -/

/-- C4 (as the code has it): on a record whose first topic is none of the
three known signatures, `parseEvent` returns without panicking, the error is
the unknown-event-type error naming the topic, and the Event returned with
it has an empty type and an empty data map but carries the record's
transaction hash, block hash and block number. -/
theorem parseEvent_unknown (addressHex : Address → String) (vLog : Log)
    (t0 : Hash) (rest : List Hash) (htopics : vLog.Topics = t0 :: rest)
    (hsig : unknownSignature t0) :
    parseEvent addressHex vLog = .returned
      ({ Typ := "", TxHash := vLog.TxHash.Hex, BlockHash := vLog.BlockHash.Hex,
         BlockNum := vLog.BlockNumber, Data := [] },
       some ("unknown event type: " ++ t0.Hex)) := by
  obtain ⟨h1, h2, h3⟩ := hsig
  simp [parseEvent, htopics, goIndex, h1, h2, h3]

/-- C4, an instance: the unknown-signature fixture is decoded to the error
together with a populated Event. -/
theorem parseEvent_unknown_witness :
    unknownFixture.Topics = hashOfByte 0x01 :: [] ∧ unknownSignature (hashOfByte 0x01) ∧
    parseEvent plainHex unknownFixture = .returned
      ({ Typ := "", TxHash := unknownFixture.TxHash.Hex,
         BlockHash := unknownFixture.BlockHash.Hex,
         BlockNum := unknownFixture.BlockNumber, Data := [] },
       some ("unknown event type: " ++ (hashOfByte 0x01).Hex)) :=
  ⟨rfl, by decide, parseEvent_unknown plainHex unknownFixture _ _ rfl (by decide)⟩

/-- C4 as stated fails: for the unknown-signature fixture the Event handed
back alongside the error carries the transaction hash, the block hash and
the block number of the record. -/
theorem parseEvent_unknown_hands_back_event :
    parseEvent plainHex unknownFixture = .returned
      ({ Typ := "",
         TxHash := "0x5555555555555555555555555555555555555555555555555555555555555555",
         BlockHash := "0x6666666666666666666666666666666666666666666666666666666666666666",
         BlockNum := 9, Data := [] },
       some "unknown event type: 0x0101010101010101010101010101010101010101010101010101010101010101") := by
  decide

/-- C5: a Swap record with a second topic and at least 96 data bytes decodes
to a Swap event; `isAToB` is true exactly when data byte 95 is 1 and false
for every other byte value; `amountIn` and `amountOut` are the big-endian
values of `data[0:32]` and `data[32:64]`. -/
theorem parseEvent_swap (addressHex : Address → String) (vLog : Log)
    (t0 t1 : Hash) (rest : List Hash) (htopics : vLog.Topics = t0 :: t1 :: rest)
    (hsig : t0.Hex = sigSwap) (hdata : 96 ≤ vLog.Data.len) :
    ∃ (b : Byte) (ev : Event), vLog.Data.toList[95]? = some b ∧
      parseEvent addressHex vLog = .returned (ev, none) ∧
      ev.Typ = "Swap" ∧
      (GoMap.get ev.Data "isAToB" = some (.bool true) ↔ b.val = 1) ∧
      (b.val ≠ 1 → GoMap.get ev.Data "isAToB" = some (.bool false)) ∧
      GoMap.get ev.Data "amountIn" =
        some (.bigInt (Int.ofNat (bigEndian (vLog.Data.range 0 32)))) ∧
      GoMap.get ev.Data "amountOut" =
        some (.bigInt (Int.ofNat (bigEndian (vLog.Data.range 32 64)))) ∧
      ev = { Typ := EventSwap, TxHash := vLog.TxHash.Hex, BlockHash := vLog.BlockHash.Hex,
             BlockNum := vLog.BlockNumber,
             Data := [("sender", .str (addressHex t1.low20)),
                      ("amountIn", .bigInt (Int.ofNat (bigEndian (vLog.Data.range 0 32)))),
                      ("amountOut", .bigInt (Int.ofNat (bigEndian (vLog.Data.range 32 64)))),
                      ("isAToB", .bool (decide (b.val = 1)))] } := by
  have s0 := vLog.Data.slice_of_le 0 32 (by omega)
  have s1 := vLog.Data.slice_of_le 32 64 (by omega)
  obtain ⟨b, hb, hidx⟩ := vLog.Data.index_of_lt 95 (by omega)
  have hne1 : sigSwap ≠ sigLiquidityAdded := fun h => sigs_distinct.2.1 h.symm
  have hne2 : sigSwap ≠ sigLiquidityRemoved := fun h => sigs_distinct.2.2 h.symm
  refine ⟨b, _, hb, ?_, ?_, ?_, ?_, ?_, ?_, rfl⟩
  · simp [parseEvent, htopics, goIndex, hsig, hne1, hne2, s0, s1, hidx, HexToAddress_Hex,
      SetBytes_eq_bigEndian, Event.setData, GoMap.set, EventSwap]
  · rfl
  · simp [GoMap.get]
  · intro hb1; simp [GoMap.get, hb1]
  · simp [GoMap.get]
  · simp [GoMap.get]

/-- C5, instances: direction byte 1 decodes `isAToB` true, direction byte 2
the same record decodes false. -/
theorem parseEvent_swap_witness :
    (swapFixture 2).Topics = swapTopic :: providerTopic :: [] ∧ swapTopic.Hex = sigSwap ∧
    96 ≤ (swapFixture 2).Data.len ∧
    ∃ (b : Byte) (ev : Event), (swapFixture 2).Data.toList[95]? = some b ∧
      parseEvent plainHex (swapFixture 2) = .returned (ev, none) ∧
      ev.Typ = "Swap" ∧
      (GoMap.get ev.Data "isAToB" = some (.bool true) ↔ b.val = 1) ∧
      (b.val ≠ 1 → GoMap.get ev.Data "isAToB" = some (.bool false)) ∧
      GoMap.get ev.Data "amountIn" =
        some (.bigInt (Int.ofNat (bigEndian ((swapFixture 2).Data.range 0 32)))) ∧
      GoMap.get ev.Data "amountOut" =
        some (.bigInt (Int.ofNat (bigEndian ((swapFixture 2).Data.range 32 64)))) ∧
      ev = { Typ := EventSwap, TxHash := (swapFixture 2).TxHash.Hex,
             BlockHash := (swapFixture 2).BlockHash.Hex,
             BlockNum := (swapFixture 2).BlockNumber,
             Data := [("sender", .str (plainHex providerTopic.low20)),
                      ("amountIn",
                        .bigInt (Int.ofNat (bigEndian ((swapFixture 2).Data.range 0 32)))),
                      ("amountOut",
                        .bigInt (Int.ofNat (bigEndian ((swapFixture 2).Data.range 32 64)))),
                      ("isAToB", .bool (decide (b.val = 1)))] } :=
  ⟨rfl, by decide, by decide,
    parseEvent_swap plainHex (swapFixture 2) swapTopic providerTopic [] rfl (by decide)
      (by decide)⟩

/-- C6: a LiquidityAdded (resp. LiquidityRemoved) record with a second topic
and at least 96 data bytes decodes to an event of that type with the
record's transaction hash, block hash and block number, whose data map has
exactly the keys provider, amountA, amountB, liquidity: the address in the
low 20 bytes of `topics[1]` and the big-endian values of `data[0:32]`,
`data[32:64]`, `data[64:96]`. -/
theorem parseEvent_liquidity (addressHex : Address → String) (vLog : Log)
    (t0 t1 : Hash) (rest : List Hash) (name : String)
    (htopics : vLog.Topics = t0 :: t1 :: rest)
    (hsig : (t0.Hex = sigLiquidityAdded ∧ name = "LiquidityAdded") ∨
      (t0.Hex = sigLiquidityRemoved ∧ name = "LiquidityRemoved"))
    (hdata : 96 ≤ vLog.Data.len) :
    parseEvent addressHex vLog = .returned
      ({ Typ := name, TxHash := vLog.TxHash.Hex, BlockHash := vLog.BlockHash.Hex,
         BlockNum := vLog.BlockNumber,
         Data := [("provider", .str (addressHex t1.low20)),
                  ("amountA", .bigInt (Int.ofNat (bigEndian (vLog.Data.range 0 32)))),
                  ("amountB", .bigInt (Int.ofNat (bigEndian (vLog.Data.range 32 64)))),
                  ("liquidity", .bigInt (Int.ofNat (bigEndian (vLog.Data.range 64 96))))] },
       none) := by
  have s0 := vLog.Data.slice_of_le 0 32 (by omega)
  have s1 := vLog.Data.slice_of_le 32 64 (by omega)
  have s2 := vLog.Data.slice_of_le 64 96 (by omega)
  rcases hsig with ⟨h0, rfl⟩ | ⟨h0, rfl⟩
  · simp [parseEvent, htopics, goIndex, h0, s0, s1, s2, HexToAddress_Hex, SetBytes_eq_bigEndian,
      Event.setData, GoMap.set, EventLiquidityAdded]
  · have hne : sigLiquidityRemoved ≠ sigLiquidityAdded := fun h => sigs_distinct.1 h.symm
    simp [parseEvent, htopics, goIndex, h0, hne, s0, s1, s2, HexToAddress_Hex,
      SetBytes_eq_bigEndian, Event.setData, GoMap.set, EventLiquidityRemoved]

/-- C6, the fixture: provider `0xaaaa…aa`, amountA 100, amountB 200,
liquidity 141. -/
theorem parseEvent_liquidity_witness :
    liquidityAddedFixture.Topics = liquidityAddedTopic :: providerTopic :: [] ∧
    liquidityAddedTopic.Hex = sigLiquidityAdded ∧ 96 ≤ liquidityAddedFixture.Data.len ∧
    parseEvent plainHex liquidityAddedFixture = .returned
      ({ Typ := "LiquidityAdded",
         TxHash := "0x1111111111111111111111111111111111111111111111111111111111111111",
         BlockHash := "0x2222222222222222222222222222222222222222222222222222222222222222",
         BlockNum := 7,
         Data := [("provider", .str "0xaaaaaaaaaaaaaaaaaaaaaaaaaaaaaaaaaaaaaaaa"),
                  ("amountA", .bigInt 100), ("amountB", .bigInt 200),
                  ("liquidity", .bigInt 141)] },
       none) :=
  ⟨rfl, by decide, by decide,
    (parseEvent_liquidity plainHex liquidityAddedFixture liquidityAddedTopic providerTopic []
      "LiquidityAdded" rfl (Or.inl ⟨by decide, rfl⟩) (by decide)).trans (by decide)⟩

/-- C8, the code on malformed records: a record without topics, a known
signature without a second topic and a known signature with fewer than 96
data bytes each make `parseEvent` panic on an out-of-range access instead of
returning a decode error. -/
theorem parseEvent_malformed_panics :
    (∀ (addressHex : Address → String) (data : ByteSlice) (n : Nat) (tx bh : Hash),
      parseEvent addressHex
        { Topics := [], Data := data, BlockNumber := n, TxHash := tx, BlockHash := bh } =
        .panicked (.indexOutOfRange 0 0)) ∧
    parseEvent plainHex noTopicFixture = .panicked (.indexOutOfRange 0 0) ∧
    parseEvent plainHex noSecondTopicFixture = .panicked (.indexOutOfRange 1 1) ∧
    parseEvent plainHex shortDataFixture = .panicked (.sliceBoundsOutOfRange 32 10) := by
  refine ⟨?_, by decide, by decide, by decide⟩
  intro addressHex data n tx bh
  rfl

/-! ## Registry: maps, subscriber lists, channel heap -/

theorem GoMap.get_set_self {κ α : Type} [DecidableEq κ] (m : GoMap κ α) (k : κ) (v : α) :
    GoMap.get (GoMap.set m k v) k = some v := by
  induction m with
  | nil => simp [GoMap.set, GoMap.get]
  | cons p rest ih =>
    obtain ⟨k0, v0⟩ := p
    by_cases h : k0 = k
    · simp [GoMap.set, GoMap.get, h]
    · simp [GoMap.set, GoMap.get, h, ih]

theorem GoMap.get_set_of_ne {κ α : Type} [DecidableEq κ] (m : GoMap κ α) (k k' : κ) (v : α)
    (h : k' ≠ k) : GoMap.get (GoMap.set m k v) k' = GoMap.get m k' := by
  induction m with
  | nil => simp [GoMap.set, GoMap.get, Ne.symm h]
  | cons p rest ih =>
    obtain ⟨k0, v0⟩ := p
    by_cases h0 : k0 = k
    · subst h0
      simp [GoMap.set, GoMap.get, Ne.symm h]
    · by_cases h1 : k0 = k'
      · subst h1
        simp [GoMap.set, GoMap.get, h]
      · simp [GoMap.set, GoMap.get, h0, h1, ih]

theorem subs_set_self (m : GoMap String (List Nat)) (heap : List Chan) (t : String)
    (l : List Nat) :
    EventListener.subs { subscribers := GoMap.set m t l, chans := heap } t = l := by
  simp [EventListener.subs, GoMap.get_set_self]

theorem subs_set_of_ne (m : GoMap String (List Nat)) (heap heap' : List Chan) (t t' : String)
    (l : List Nat) (h : t' ≠ t) :
    EventListener.subs { subscribers := GoMap.set m t l, chans := heap } t' =
      EventListener.subs { subscribers := m, chans := heap' } t' := by
  simp [EventListener.subs, GoMap.get_set_of_ne _ _ _ _ h]

theorem subs_Subscribe_self (el : EventListener) (t : String) :
    (Subscribe el t).1.subs t = el.subs t ++ [el.chans.length] :=
  subs_set_self _ _ _ _

theorem subs_Subscribe_of_ne (el : EventListener) (t t' : String) (h : t' ≠ t) :
    (Subscribe el t).1.subs t' = el.subs t' :=
  subs_set_of_ne _ _ el.chans _ _ _ h

theorem chans_Subscribe (el : EventListener) (t : String) :
    (Subscribe el t).1.chans = el.chans ++ [{ cap := 10, buf := [], closed := false }] := rfl

theorem firstIndex_eq_none (ch : Nat) (l : List Nat) : firstIndex ch l = none ↔ ch ∉ l := by
  induction l with
  | nil => simp [firstIndex]
  | cons c cs ih =>
    by_cases h : c = ch
    · simp [firstIndex, h]
    · simp [firstIndex, h, ih, Ne.symm h]

/-- Cutting the list at the first hit removes the first occurrence. -/
theorem firstIndex_erase (ch : Nat) (l : List Nat) (i : Nat) (h : firstIndex ch l = some i) :
    l.take i ++ l.drop (i + 1) = l.erase ch := by
  induction l generalizing i with
  | nil => simp [firstIndex] at h
  | cons c cs ih =>
    by_cases hc : c = ch
    · simp [firstIndex, hc] at h
      subst h
      simp [hc]
    · simp only [firstIndex, hc, if_false, Option.map_eq_some'] at h
      obtain ⟨j, hj, rfl⟩ := h
      have := ih j hj
      simp [List.erase_cons, hc, this]

theorem Unsubscribe_of_not_mem (el : EventListener) (t : String) (ch : Nat)
    (h : ch ∉ el.subs t) : Unsubscribe el t ch = .returned el := by
  unfold Unsubscribe
  cases hg : GoMap.get el.subscribers t with
  | none => rfl
  | some chans =>
    have : firstIndex ch chans = none := by
      rw [firstIndex_eq_none]
      simpa [EventListener.subs, hg] using h
    simp [this]

theorem Unsubscribe_of_mem (el : EventListener) (t : String) (ch : Nat) (c0 : Chan)
    (h : ch ∈ el.subs t) (hc : el.chans[ch]? = some c0) (hopen : c0.closed = false) :
    Unsubscribe el t ch = .returned
      { subscribers := GoMap.set el.subscribers t ((el.subs t).erase ch),
        chans := el.chans.set ch { c0 with closed := true } } := by
  unfold Unsubscribe
  cases hg : GoMap.get el.subscribers t with
  | none => simp [EventListener.subs, hg] at h
  | some chans =>
    have hs : el.subs t = chans := by simp [EventListener.subs, hg]
    rw [hs] at h
    cases hf : firstIndex ch chans with
    | none => exact absurd h ((firstIndex_eq_none ch chans).1 hf)
    | some i =>
      simp [closeChan, hc, hopen, hs, hf, firstIndex_erase ch chans i hf]

/-- The capacity and the closed flag of a channel. -/
theorem sendAll_shape (e : Event) (l : List Nat) (heap : List Chan) (tr : List Nat) (c : Nat) :
    ((sendAll e l heap tr).chans[c]?).map (fun ch => (ch.cap, ch.closed)) =
      (heap[c]?).map (fun ch => (ch.cap, ch.closed)) := by
  induction l generalizing heap tr with
  | nil => rfl
  | cons c0 rest ih =>
    unfold sendAll
    cases hg : heap[c0]? with
    | none => rfl
    | some ch0 =>
      simp only
      split
      · rfl
      · split
        · rw [ih]
          by_cases hc : c0 = c
          · subst hc
            have hlt : c0 < heap.length := (List.getElem?_eq_some.1 hg).1
            simp [List.getElem?_set_self hlt, hg]
          · simp [List.getElem?_set_ne hc]
        · rfl

theorem sendAll_length (e : Event) (l : List Nat) (heap : List Chan) (tr : List Nat) :
    (sendAll e l heap tr).chans.length = heap.length := by
  induction l generalizing heap tr with
  | nil => rfl
  | cons c0 rest ih =>
    unfold sendAll
    cases hg : heap[c0]? with
    | none => rfl
    | some ch0 =>
      simp only
      split
      · rfl
      · split
        · rw [ih]; simp
        · rfl

/-- The two loops of `publish` are one loop over the concatenated lists. -/
theorem sendAll_append (e : Event) (l1 l2 : List Nat) (heap : List Chan) (tr : List Nat) :
    sendAll e (l1 ++ l2) heap tr =
      match (sendAll e l1 heap tr).status with
      | .done => sendAll e l2 (sendAll e l1 heap tr).chans (sendAll e l1 heap tr).trace
      | _ => sendAll e l1 heap tr := by
  induction l1 generalizing heap tr with
  | nil => rfl
  | cons c0 rest ih =>
    simp only [List.cons_append]
    cases hg : heap[c0]? with
    | none => simp only [sendAll, hg]
    | some ch0 =>
      by_cases hcl : ch0.closed = true
      · simp only [sendAll, hg, hcl, if_true]
      · by_cases hroom : ch0.buf.length < ch0.cap
        · simp only [sendAll, hg, hcl, hroom, if_true, if_false]
          exact ih _ _
        · simp [sendAll, hg, hcl, hroom]

theorem publish_eq_sendAll (el : EventListener) (e : Event) :
    publish el e = sendAll e (targets el e) el.chans [] := by
  unfold publish targets EventListener.subs
  rw [sendAll_append]
  cases h1 : GoMap.get el.subscribers e.Typ with
  | none =>
    cases h2 : GoMap.get el.subscribers "*" with
    | none => rfl
    | some l2 => rfl
  | some l1 =>
    cases h2 : GoMap.get el.subscribers "*" with
    | none =>
      simp only [Option.getD_some, Option.getD_none]
      generalize sendAll e l1 el.chans [] = r
      rcases r with ⟨c, tr, st⟩
      cases st <;> rfl
    | some l2 => rfl

/-! ## Registry: the send loop -/

/-- With every target open and roomy, the loop completes, sends in list
order, and appends one copy per occurrence to each queue. -/
theorem sendAll_spec (e : Event) (l : List Nat) (heap : List Chan) (tr : List Nat)
    (h : ∀ c ∈ l, ∃ ch, heap[c]? = some ch ∧ ch.closed = false ∧
      ch.buf.length + l.count c ≤ ch.cap) :
    (sendAll e l heap tr).status = .done ∧ (sendAll e l heap tr).trace = tr ++ l ∧
    ∀ c : Nat, (sendAll e l heap tr).chans[c]? =
      (heap[c]?).map (fun ch => { ch with buf := ch.buf ++ List.replicate (l.count c) e }) := by
  induction l generalizing heap tr with
  | nil =>
    refine ⟨rfl, by simp [sendAll], ?_⟩
    intro c
    cases hx : heap[c]? <;> simp [sendAll, hx]
  | cons c0 rest ih =>
    obtain ⟨ch0, hg, hopen, hroom⟩ := h c0 (List.mem_cons_self _ _)
    have hlt0 : c0 < heap.length := (List.getElem?_eq_some.1 hg).1
    rw [List.count_cons_self] at hroom
    have hlt : ch0.buf.length < ch0.cap := by omega
    have hstep : sendAll e (c0 :: rest) heap tr =
        sendAll e rest (heap.set c0 { ch0 with buf := ch0.buf ++ [e] }) (tr ++ [c0]) := by
      simp [sendAll, hg, hopen, hlt]
    have h1 : ∀ c ∈ rest, ∃ ch,
        (heap.set c0 { ch0 with buf := ch0.buf ++ [e] })[c]? = some ch ∧ ch.closed = false ∧
        ch.buf.length + rest.count c ≤ ch.cap := by
      intro c hc
      by_cases hcc : c0 = c
      · subst hcc
        refine ⟨_, List.getElem?_set_self hlt0, hopen, ?_⟩
        simp only [List.length_append, List.length_singleton]
        omega
      · obtain ⟨ch, hgc, hoc, hrc⟩ := h c (List.mem_cons_of_mem _ hc)
        refine ⟨ch, by rw [List.getElem?_set_ne hcc]; exact hgc, hoc, ?_⟩
        rw [List.count_cons_of_ne (Ne.symm hcc)] at hrc
        exact hrc
    obtain ⟨i1, i2, i3⟩ := ih _ (tr ++ [c0]) h1
    rw [hstep]
    refine ⟨i1, by rw [i2]; simp, ?_⟩
    intro c
    rw [i3 c]
    by_cases hcc : c0 = c
    · subst hcc
      rw [List.getElem?_set_self hlt0, hg]
      simp [List.replicate_succ, List.append_assoc]
    · rw [List.getElem?_set_ne hcc, List.count_cons_of_ne (Ne.symm hcc)]

theorem sendAll_trace_subset (e : Event) (l : List Nat) (heap : List Chan) (tr : List Nat)
    (c : Nat) (hc : c ∈ (sendAll e l heap tr).trace) : c ∈ tr ∨ c ∈ l := by
  induction l generalizing heap tr with
  | nil => exact Or.inl hc
  | cons c0 rest ih =>
    cases hg : heap[c0]? with
    | none =>
      simp only [sendAll, hg] at hc
      exact Or.inl hc
    | some ch0 =>
      by_cases hcl : ch0.closed = true
      · simp [sendAll, hg, hcl] at hc
        exact Or.inl hc
      · by_cases hroom : ch0.buf.length < ch0.cap
        · simp only [sendAll, hg, hcl, hroom, if_true, if_false] at hc
          rcases ih _ _ hc with h | h
          · rcases List.mem_append.1 h with h | h
            · exact Or.inl h
            · exact Or.inr (by simp at h; simp [h])
          · exact Or.inr (List.mem_cons_of_mem _ h)
        · simp [sendAll, hg, hcl, hroom] at hc
          exact Or.inl hc

theorem sendAll_unchanged (e : Event) (l : List Nat) (heap : List Chan) (tr : List Nat)
    (c : Nat) (hc : c ∉ l) : (sendAll e l heap tr).chans[c]? = heap[c]? := by
  induction l generalizing heap tr with
  | nil => rfl
  | cons c0 rest ih =>
    have hne : c0 ≠ c := fun h => hc (by simp [h])
    have hrest : c ∉ rest := fun h => hc (List.mem_cons_of_mem _ h)
    cases hg : heap[c0]? with
    | none => simp only [sendAll, hg]
    | some ch0 =>
      cases hcl : ch0.closed with
      | true => simp [sendAll, hg, hcl]
      | false =>
        by_cases hroom : ch0.buf.length < ch0.cap
        · simp only [sendAll, hg, hcl, hroom, if_true, Bool.false_eq_true, if_false]
          rw [ih _ _ hrest, List.getElem?_set_ne hne]
        · simp [sendAll, hg, hcl, hroom]

/-- With every target allocated and open the loop completes or stalls on a
full queue; it does not panic. -/
theorem sendAll_no_panic (e : Event) (l : List Nat) (heap : List Chan) (tr : List Nat)
    (h : ∀ c ∈ l, ∃ ch, heap[c]? = some ch ∧ ch.closed = false) (p : Panic) :
    (sendAll e l heap tr).status ≠ .panicked p := by
  induction l generalizing heap tr with
  | nil => simp [sendAll]
  | cons c0 rest ih =>
    obtain ⟨ch0, hg, hopen⟩ := h c0 (List.mem_cons_self _ _)
    have hlt0 : c0 < heap.length := (List.getElem?_eq_some.1 hg).1
    by_cases hroom : ch0.buf.length < ch0.cap
    · simp only [sendAll, hg, hopen, hroom, if_true, Bool.false_eq_true, if_false]
      apply ih
      intro c hc
      by_cases hcc : c0 = c
      · subst hcc
        exact ⟨_, List.getElem?_set_self hlt0, rfl⟩
      · obtain ⟨ch, hgc, hoc⟩ := h c (List.mem_cons_of_mem _ hc)
        exact ⟨ch, by rw [List.getElem?_set_ne hcc]; exact hgc, hoc⟩
    · simp [sendAll, hg, hopen, hroom]

/-! ## Registry: well-formedness of reachable states -/

theorem WF.lt_length {el : EventListener} (hwf : WF el) {t : String} {c : Nat}
    (hc : c ∈ el.subs t) : c < el.chans.length := by
  obtain ⟨ch, hg, _⟩ := hwf.1 t c hc
  exact (List.getElem?_eq_some.1 hg).1

theorem WF_new : WF NewEventListener := by
  refine ⟨?_, ?_, ?_⟩ <;> intros <;> simp_all [NewEventListener, EventListener.subs, GoMap.get]

theorem fresh_not_mem {el : EventListener} (hwf : WF el) (t : String) :
    el.chans.length ∉ el.subs t := fun h => Nat.lt_irrefl _ (hwf.lt_length h)

theorem WF_Subscribe {el : EventListener} (hwf : WF el) (t : String) :
    WF (Subscribe el t).1 := by
  have hsub : ∀ t' c, c ∈ (Subscribe el t).1.subs t' →
      c ∈ el.subs t' ∨ (t' = t ∧ c = el.chans.length) := by
    intro t' c hc
    by_cases ht : t' = t
    · subst ht
      rw [subs_Subscribe_self] at hc
      rcases List.mem_append.1 hc with h | h
      · exact Or.inl h
      · exact Or.inr ⟨rfl, by simpa using h⟩
    · rw [subs_Subscribe_of_ne _ _ _ ht] at hc
      exact Or.inl hc
  refine ⟨?_, ?_, ?_⟩
  · intro t' c hc
    rw [chans_Subscribe]
    rcases hsub t' c hc with h | ⟨_, rfl⟩
    · obtain ⟨ch, hg, ho, hcap⟩ := hwf.1 t' c h
      exact ⟨ch, by rw [List.getElem?_append_left (hwf.lt_length h)]; exact hg, ho, hcap⟩
    · exact ⟨_, List.getElem?_concat_length _ _, rfl, rfl⟩
  · intro t'
    by_cases ht : t' = t
    · subst ht
      rw [subs_Subscribe_self]
      refine List.Nodup.append (hwf.2.1 t') (List.nodup_singleton _) ?_
      intro c h1 h2
      simp only [List.mem_singleton] at h2
      subst h2
      exact fresh_not_mem hwf t' h1
    · rw [subs_Subscribe_of_ne _ _ _ ht]
      exact hwf.2.1 t'
  · intro t1 t2 hne c h1 h2
    rcases hsub t1 c h1 with a | ⟨rfl, rfl⟩
    · rcases hsub t2 c h2 with b | ⟨rfl, rfl⟩
      · exact hwf.2.2 t1 t2 hne c a b
      · exact fresh_not_mem hwf t1 a
    · rcases hsub t2 _ h2 with b | ⟨h, _⟩
      · exact fresh_not_mem hwf t2 b
      · exact hne h.symm

/-- What a returning `Unsubscribe` did: nothing when the channel is not in
the list, otherwise the first occurrence is cut out and the channel, which
was open, is closed. -/
theorem Unsubscribe_returned {el el' : EventListener} {t : String} {ch : Nat}
    (h : Unsubscribe el t ch = .returned el') :
    (ch ∉ el.subs t ∧ el' = el) ∨
    (ch ∈ el.subs t ∧ ∃ c0, el.chans[ch]? = some c0 ∧ c0.closed = false ∧
      el' = { subscribers := GoMap.set el.subscribers t ((el.subs t).erase ch),
              chans := el.chans.set ch { c0 with closed := true } }) := by
  by_cases hmem : ch ∈ el.subs t
  · right
    refine ⟨hmem, ?_⟩
    cases hg : el.chans[ch]? with
    | none =>
      exfalso
      unfold Unsubscribe at h
      cases hs : GoMap.get el.subscribers t with
      | none => simp [EventListener.subs, hs] at hmem
      | some chans =>
        have hm : ch ∈ chans := by simpa [EventListener.subs, hs] using hmem
        cases hf : firstIndex ch chans with
        | none => exact absurd hm ((firstIndex_eq_none ch chans).1 hf)
        | some i => simp [hs, hf, closeChan, hg] at h
    | some c0 =>
      cases hcl : c0.closed with
      | false =>
        rw [Unsubscribe_of_mem el t ch c0 hmem hg hcl] at h
        exact ⟨c0, rfl, hcl, (GoResult.returned.inj h).symm⟩
      | true =>
        exfalso
        unfold Unsubscribe at h
        cases hs : GoMap.get el.subscribers t with
        | none => simp [EventListener.subs, hs] at hmem
        | some chans =>
          have hm : ch ∈ chans := by simpa [EventListener.subs, hs] using hmem
          cases hf : firstIndex ch chans with
          | none => exact absurd hm ((firstIndex_eq_none ch chans).1 hf)
          | some i => simp [hs, hf, closeChan, hg, hcl] at h
  · left
    rw [Unsubscribe_of_not_mem el t ch hmem] at h
    exact ⟨hmem, (GoResult.returned.inj h).symm⟩

theorem WF_Unsubscribe {el el' : EventListener} (hwf : WF el) {t : String} {ch : Nat}
    (h : Unsubscribe el t ch = .returned el') : WF el' := by
  rcases Unsubscribe_returned h with ⟨_, rfl⟩ | ⟨hmem, c0, hg, hopen, rfl⟩
  · exact hwf
  · have hsub : ∀ t' c, c ∈ EventListener.subs
          { subscribers := GoMap.set el.subscribers t ((el.subs t).erase ch),
            chans := el.chans.set ch { c0 with closed := true } } t' →
        c ∈ el.subs t' ∧ c ≠ ch := by
      intro t' c hc
      by_cases ht : t' = t
      · subst ht
        rw [subs_set_self] at hc
        have := ((hwf.2.1 t').mem_erase_iff).1 hc
        exact ⟨this.2, this.1⟩
      · rw [subs_set_of_ne _ _ el.chans _ _ _ ht] at hc
        refine ⟨hc, ?_⟩
        rintro rfl
        exact hwf.2.2 t' t ht c hc hmem
    refine ⟨?_, ?_, ?_⟩
    · intro t' c hc
      obtain ⟨h1, h2⟩ := hsub t' c hc
      obtain ⟨ch1, hg1, ho1, hcap1⟩ := hwf.1 t' c h1
      refine ⟨ch1, ?_, ho1, hcap1⟩
      show (el.chans.set ch { c0 with closed := true })[c]? = some ch1
      rw [List.getElem?_set_ne (Ne.symm h2)]
      exact hg1
    · intro t'
      by_cases ht : t' = t
      · subst ht
        rw [subs_set_self]
        exact (hwf.2.1 t').erase ch
      · rw [subs_set_of_ne _ _ el.chans _ _ _ ht]
        exact hwf.2.1 t'
    · intro t1 t2 hne c h1 h2
      exact hwf.2.2 t1 t2 hne c (hsub t1 c h1).1 (hsub t2 c h2).1

/-- Well-formedness only looks at the subscriber map and at the capacity
and closed flag of each channel. -/
theorem WF_of_shape {el el' : EventListener} (hwf : WF el)
    (hs : el'.subscribers = el.subscribers)
    (hc : ∀ c : Nat, (el'.chans[c]?).map (fun ch => (ch.cap, ch.closed)) =
      (el.chans[c]?).map (fun ch => (ch.cap, ch.closed))) : WF el' := by
  have hsubs : ∀ t, el'.subs t = el.subs t := by
    intro t; simp [EventListener.subs, hs]
  refine ⟨?_, ?_, ?_⟩
  · intro t c hmem
    rw [hsubs] at hmem
    obtain ⟨ch, hg, ho, hcap⟩ := hwf.1 t c hmem
    have := hc c
    rw [hg] at this
    cases hg' : el'.chans[c]? with
    | none => simp [hg'] at this
    | some ch' =>
      simp only [hg', Option.map_some', Option.some.injEq, Prod.mk.injEq] at this
      exact ⟨ch', rfl, by rw [this.2, ho], by rw [this.1, hcap]⟩
  · intro t; rw [hsubs]; exact hwf.2.1 t
  · intro t1 t2 hne c h1 h2
    rw [hsubs] at h1 h2
    exact hwf.2.2 t1 t2 hne c h1 h2

theorem recv_shape (el : EventListener) (ch c : Nat) :
    ((recv el ch).chans[c]?).map (fun x => (x.cap, x.closed)) =
      (el.chans[c]?).map (fun x => (x.cap, x.closed)) := by
  unfold recv
  cases hg : el.chans[ch]? with
  | none => rfl
  | some c0 =>
    simp only
    by_cases hcc : ch = c
    · subst hcc
      have hlt : ch < el.chans.length := (List.getElem?_eq_some.1 hg).1
      simp [List.getElem?_set_self hlt, hg]
    · simp [List.getElem?_set_ne hcc]

theorem recv_subscribers (el : EventListener) (ch : Nat) :
    (recv el ch).subscribers = el.subscribers := by
  unfold recv
  cases el.chans[ch]? <;> rfl

theorem WF_Step {el el' : EventListener} (hwf : WF el) (h : Step el el') : WF el' := by
  cases h with
  | subscribe t => exact WF_Subscribe hwf t
  | unsubscribe _ t ch hu => exact WF_Unsubscribe hwf hu
  | publish e hd =>
    refine WF_of_shape hwf rfl ?_
    intro c
    rw [publish_eq_sendAll]
    exact sendAll_shape e _ _ _ c
  | recv ch => exact WF_of_shape hwf (recv_subscribers el ch) (recv_shape el ch)

theorem WF_of_steps {el el' : EventListener} (hwf : WF el)
    (h : Relation.ReflTransGen Step el el') : WF el' := by
  induction h with
  | refl => exact hwf
  | tail _ hstep ih => exact WF_Step ih hstep

/-- Every reachable listener state is well-formed. -/
theorem Reachable.wf {el : EventListener} (h : Reachable el) : WF el :=
  WF_of_steps WF_new h

/-! ## Registry: claims -/

theorem reachable_twoSubscribers : Reachable twoSubscribers :=
  Relation.ReflTransGen.tail
    (Relation.ReflTransGen.tail Relation.ReflTransGen.refl (Step.subscribe _ "*"))
    (Step.subscribe _ "Swap")

theorem steps_publishTimes (e : Event) (n : Nat) (el : EventListener) :
    Relation.ReflTransGen Step el (publishTimes e n el) := by
  induction n generalizing el with
  | zero => exact Relation.ReflTransGen.refl
  | succ n ih =>
    unfold publishTimes
    cases hs : (publish el e).status with
    | done => exact Relation.ReflTransGen.head (Step.publish el e hs) (ih _)
    | blocked c => exact Relation.ReflTransGen.refl
    | panicked p => exact Relation.ReflTransGen.refl

theorem reachable_fullSwapListener : Reachable fullSwapListener :=
  Relation.ReflTransGen.trans
    (Relation.ReflTransGen.tail Relation.ReflTransGen.refl (Step.subscribe _ "Swap"))
    (steps_publishTimes swapEvent 10 _)

theorem reachable_fullWildcardListener : Reachable fullWildcardListener :=
  Relation.ReflTransGen.tail
    (Relation.ReflTransGen.trans
      (Relation.ReflTransGen.tail Relation.ReflTransGen.refl (Step.subscribe _ "*"))
      (steps_publishTimes swapEvent 10 _))
    (Step.subscribe _ "Swap")

/-- With every target allocated and open, the loop sends along the list in
order up to the first queue that is full once the earlier sends are counted,
and stalls there; with no such queue it completes. Every queue gains one copy
per send made, and every send made fitted its queue. -/
theorem sendAll_prefix (e : Event) (l : List Nat) (heap : List Chan) (tr : List Nat)
    (hopen : ∀ c ∈ l, ∃ ch, heap[c]? = some ch ∧ ch.closed = false) :
    ∃ k, k ≤ l.length ∧
      (sendAll e l heap tr).trace = tr ++ l.take k ∧
      (∀ c : Nat, (sendAll e l heap tr).chans[c]? = (heap[c]?).map (fun ch =>
        { ch with buf := ch.buf ++ List.replicate ((l.take k).count c) e })) ∧
      (∀ c ∈ l.take k, ∀ ch, heap[c]? = some ch →
        ch.buf.length + (l.take k).count c ≤ ch.cap) ∧
      (((sendAll e l heap tr).status = .done ∧ k = l.length) ∨
        ∃ c ch, (sendAll e l heap tr).status = .blocked c ∧ l[k]? = some c ∧
          heap[c]? = some ch ∧ ch.cap ≤ ch.buf.length + (l.take k).count c) := by
  induction l generalizing heap tr with
  | nil =>
    refine ⟨0, Nat.le_refl _, by simp [sendAll], ?_, by simp, Or.inl ⟨rfl, rfl⟩⟩
    intro c
    cases hx : heap[c]? <;> simp [sendAll, hx]
  | cons c0 rest ih =>
    obtain ⟨ch0, hg, hopen0⟩ := hopen c0 (List.mem_cons_self _ _)
    have hlt0 : c0 < heap.length := (List.getElem?_eq_some.1 hg).1
    by_cases hroom : ch0.buf.length < ch0.cap
    · have hstep : sendAll e (c0 :: rest) heap tr =
          sendAll e rest (heap.set c0 { ch0 with buf := ch0.buf ++ [e] }) (tr ++ [c0]) := by
        simp [sendAll, hg, hopen0, hroom]
      have hopen1 : ∀ c ∈ rest, ∃ ch,
          (heap.set c0 { ch0 with buf := ch0.buf ++ [e] })[c]? = some ch ∧
          ch.closed = false := by
        intro c hc
        by_cases hcc : c0 = c
        · subst hcc
          exact ⟨_, List.getElem?_set_self hlt0, hopen0⟩
        · obtain ⟨ch, hgc, hoc⟩ := hopen c (List.mem_cons_of_mem _ hc)
          exact ⟨ch, by rw [List.getElem?_set_ne hcc]; exact hgc, hoc⟩
      obtain ⟨k, hk, htr, hch, hfit, hst⟩ := ih _ (tr ++ [c0]) hopen1
      rw [hstep]
      refine ⟨k + 1, by simp only [List.length_cons]; omega, ?_, ?_, ?_, ?_⟩
      · rw [htr]; simp
      · intro c
        rw [hch c, List.take_succ_cons]
        by_cases hcc : c0 = c
        · subst hcc
          rw [List.getElem?_set_self hlt0, hg, List.count_cons_self]
          simp [List.replicate_succ, List.append_assoc]
        · rw [List.getElem?_set_ne hcc, List.count_cons_of_ne (Ne.symm hcc)]
      · intro c hc ch hgc
        rw [List.take_succ_cons] at hc ⊢
        by_cases hcc : c0 = c
        · subst hcc
          rw [hg] at hgc
          cases hgc
          rw [List.count_cons_self]
          by_cases hin : c0 ∈ rest.take k
          · have := hfit c0 hin _ (List.getElem?_set_self hlt0)
            simp only [List.length_append, List.length_singleton] at this
            omega
          · rw [List.count_eq_zero_of_not_mem hin]
            omega
        · have hin : c ∈ rest.take k := by
            rcases List.mem_cons.1 hc with h | h
            · exact absurd h.symm hcc
            · exact h
          rw [List.count_cons_of_ne (Ne.symm hcc)]
          exact hfit c hin ch (by rw [List.getElem?_set_ne hcc]; exact hgc)
      · rcases hst with ⟨hd, hkl⟩ | ⟨c, ch1, hb, hidx, hg1, hfull⟩
        · exact Or.inl ⟨hd, by simp [hkl]⟩
        · right
          by_cases hcc : c0 = c
          · subst hcc
            rw [List.getElem?_set_self hlt0] at hg1
            cases hg1
            refine ⟨c0, ch0, hb, by simpa using hidx, hg, ?_⟩
            rw [List.take_succ_cons, List.count_cons_self]
            simp only [List.length_append, List.length_singleton] at hfull
            omega
          · rw [List.getElem?_set_ne hcc] at hg1
            refine ⟨c, ch1, hb, by simpa using hidx, hg1, ?_⟩
            rw [List.take_succ_cons, List.count_cons_of_ne (Ne.symm hcc)]
            exact hfull
    · have hstep : sendAll e (c0 :: rest) heap tr =
          { chans := heap, trace := tr, status := .blocked c0 } := by
        simp [sendAll, hg, hopen0, hroom]
      rw [hstep]
      refine ⟨0, Nat.zero_le _, by simp, ?_, by simp, Or.inr ⟨c0, ch0, rfl, by simp, hg, ?_⟩⟩
      · intro c
        cases hx : heap[c]? <;> simp
      · simp only [List.take_zero, List.count_nil]
        omega

theorem WF.open_targets {el : EventListener} (hwf : WF el) (e : Event) :
    ∀ c ∈ targets el e, ∃ ch, el.chans[c]? = some ch ∧ ch.closed = false := by
  intro c hc
  rcases List.mem_append.1 hc with h | h
  · obtain ⟨ch, hg, ho, _⟩ := hwf.1 _ c h
    exact ⟨ch, hg, ho⟩
  · obtain ⟨ch, hg, ho, _⟩ := hwf.1 _ c h
    exact ⟨ch, hg, ho⟩

theorem publish_of_wf (el : EventListener) (e : Event) (hwf : WF el) (hroom : HasRoom el e) :
    (publish el e).status = .done ∧
    (publish el e).trace = targets el e ∧
    ∀ c : Nat, (publish el e).chans[c]? = (el.chans[c]?).map
      (fun ch => { ch with buf := ch.buf ++ List.replicate ((targets el e).count c) e }) := by
  have h : ∀ c ∈ targets el e, ∃ ch, el.chans[c]? = some ch ∧ ch.closed = false ∧
      ch.buf.length + (targets el e).count c ≤ ch.cap := by
    intro c hc
    have hr := hroom c hc
    obtain ⟨ch, hg, ho⟩ := hwf.open_targets e c hc
    refine ⟨ch, hg, ho, ?_⟩
    simpa [roomAt, hg] using hr
  obtain ⟨h1, h2, h3⟩ := sendAll_spec e (targets el e) el.chans [] h
  rw [publish_eq_sendAll]
  exact ⟨h1, by simpa using h2, h3⟩

/-- C2 (as the code has it): in every registry state `publish e` sends along
the subscriptions under the type of `e` in list order and then along those
under the wildcard topic in list order; it enqueues on each in turn up to the
first one whose queue is full, where it stalls, and never panics; every queue
gains one copy per send made on it, every send made fitted its queue, and a
queue in neither list is unchanged. When every targeted queue has room the
call completes, having enqueued on every subscription of both lists. -/
theorem publish_delivery (el : EventListener) (e : Event) (hreach : Reachable el) :
    (∃ k, k ≤ (el.subs e.Typ ++ el.subs "*").length ∧
      (publish el e).trace = (el.subs e.Typ ++ el.subs "*").take k ∧
      (∀ c : Nat, (publish el e).chans[c]? = (el.chans[c]?).map (fun ch =>
        { ch with
          buf := ch.buf ++
            List.replicate (((el.subs e.Typ ++ el.subs "*").take k).count c) e })) ∧
      (∀ c ∈ (el.subs e.Typ ++ el.subs "*").take k, ∀ ch, el.chans[c]? = some ch →
        ch.buf.length + ((el.subs e.Typ ++ el.subs "*").take k).count c ≤ ch.cap) ∧
      (((publish el e).status = .done ∧ k = (el.subs e.Typ ++ el.subs "*").length) ∨
        ∃ c ch, (publish el e).status = .blocked c ∧
          (el.subs e.Typ ++ el.subs "*")[k]? = some c ∧ el.chans[c]? = some ch ∧
          ch.cap ≤ ch.buf.length + ((el.subs e.Typ ++ el.subs "*").take k).count c)) ∧
    (HasRoom el e →
      (publish el e).status = .done ∧
      (publish el e).trace = el.subs e.Typ ++ el.subs "*" ∧
      (∀ c : Nat, (publish el e).chans[c]? = (el.chans[c]?).map (fun ch =>
        { ch with
          buf := ch.buf ++ List.replicate ((el.subs e.Typ ++ el.subs "*").count c) e }))) ∧
    (∀ c : Nat, c ∉ el.subs e.Typ → c ∉ el.subs "*" →
      (publish el e).chans[c]? = el.chans[c]?) := by
  have hwf := hreach.wf
  refine ⟨?_, fun hroom => publish_of_wf el e hwf hroom, ?_⟩
  · obtain ⟨k, h1, h2, h3, h4, h5⟩ :=
      sendAll_prefix e (targets el e) el.chans [] (hwf.open_targets e)
    rw [publish_eq_sendAll]
    exact ⟨k, h1, by simpa using h2, h3, h4, h5⟩
  · intro c hc1 hc2
    rw [publish_eq_sendAll]
    exact sendAll_unchanged e _ _ _ c (by simp [targets, hc1, hc2])

/-- C2, an instance: with room, a Swap event published to a Swap subscriber
and a wildcard subscriber reaches both, the Swap subscriber first. -/
theorem publish_delivery_witness :
    Reachable twoSubscribers ∧ HasRoom twoSubscribers swapEvent ∧
    (publish twoSubscribers swapEvent).status = .done ∧
    (publish twoSubscribers swapEvent).trace =
      twoSubscribers.subs swapEvent.Typ ++ twoSubscribers.subs "*" ∧
    (∀ c : Nat, c ∉ twoSubscribers.subs swapEvent.Typ → c ∉ twoSubscribers.subs "*" →
      (publish twoSubscribers swapEvent).chans[c]? = twoSubscribers.chans[c]?) :=
  have h := publish_delivery twoSubscribers swapEvent reachable_twoSubscribers
  ⟨reachable_twoSubscribers, by decide, (h.2.1 (by decide)).1, (h.2.1 (by decide)).2.1, h.2.2⟩

/-- C2 as stated fails on a full queue: in the reachable state where the
wildcard subscriber (channel 0) holds ten events and a Swap subscriber
(channel 1) was added, `publish` of a Swap event enqueues on channel 1 and
stalls on channel 0, so the registered wildcard subscription is not enqueued
on. -/
theorem publish_stalls_on_full_queue :
    Reachable fullWildcardListener ∧
    fullWildcardListener.subs swapEvent.Typ = [1] ∧
    fullWildcardListener.subs "*" = [0] ∧
    (publish fullWildcardListener swapEvent).status = .blocked 0 ∧
    (publish fullWildcardListener swapEvent).trace = [1] ∧
    (publish fullWildcardListener swapEvent).chans[0]? = fullWildcardListener.chans[0]? :=
  ⟨reachable_fullWildcardListener, by decide, by decide, by decide, by decide, by decide⟩

/-- C1 (as the code has it): after `Subscribe(t)` in a registry state, when
the queues of the older subscriptions under `t` have room, a `publish` of an
event of type `t` does not panic and enqueues on the new subscription, whose
queue is new and so has room, exactly one copy when `t` is not the wildcard
topic, whether or not the call later stalls on a wildcard queue; when `t` is
`"*"` and the older wildcard queues have room for two, it enqueues exactly
two copies. -/
theorem subscribe_then_publish (el : EventListener) (t : String) (e : Event)
    (hreach : Reachable el) (he : e.Typ = t)
    (hroom : ∀ c ∈ el.subs t, roomAt el.chans c (if t = "*" then 2 else 1)) :
    (∀ p, (publish (Subscribe el t).1 e).status ≠ .panicked p) ∧
    (publish (Subscribe el t).1 e).trace.count (Subscribe el t).2 =
      (if t = "*" then 2 else 1) ∧
    (publish (Subscribe el t).1 e).chans[(Subscribe el t).2]? =
      some { cap := 10, buf := List.replicate (if t = "*" then 2 else 1) e,
             closed := false } := by
  have hwf := hreach.wf
  have hwf1 := WF_Subscribe hwf t
  have hs : (Subscribe el t).2 = el.chans.length := rfl
  have hfresh : ∀ t', (el.subs t').count el.chans.length = 0 := fun t' =>
    List.count_eq_zero_of_not_mem (fresh_not_mem hwf t')
  have hnew : (Subscribe el t).1.chans[el.chans.length]? =
      some { cap := 10, buf := [], closed := false } := by
    rw [chans_Subscribe]; exact List.getElem?_concat_length _ _
  have hold : ∀ c ∈ el.subs t, (Subscribe el t).1.chans[c]? = el.chans[c]? := by
    intro c hc
    rw [chans_Subscribe, List.getElem?_append_left (hwf.lt_length hc)]
  by_cases ht : t = "*"
  · subst ht
    simp only [if_true] at hroom ⊢
    have htargets : targets (Subscribe el "*").1 e =
        (el.subs "*" ++ [el.chans.length]) ++ (el.subs "*" ++ [el.chans.length]) := by
      unfold targets
      rw [he, subs_Subscribe_self]
    have hr : HasRoom (Subscribe el "*").1 e := by
      intro c hc
      rw [htargets] at hc ⊢
      have hmem : c ∈ el.subs "*" ++ [el.chans.length] := by
        rcases List.mem_append.1 hc with h | h <;> exact h
      have hnd : (el.subs "*" ++ [el.chans.length]).Nodup := by
        have := hwf1.2.1 "*"
        rwa [subs_Subscribe_self] at this
      have hcnt : ((el.subs "*" ++ [el.chans.length]) ++
          (el.subs "*" ++ [el.chans.length])).count c = 2 := by
        rw [List.count_append, List.count_eq_one_of_mem hnd hmem]
      rw [hcnt]
      rcases List.mem_append.1 hmem with h | h
      · have := hroom c h
        unfold roomAt at this ⊢
        rw [hold c h]
        exact this
      · simp only [List.mem_singleton] at h
        subst h
        unfold roomAt
        rw [hnew]
        decide
    obtain ⟨h1, h2, h3⟩ := publish_of_wf _ e hwf1 hr
    have hcount : (targets (Subscribe el "*").1 e).count el.chans.length = 2 := by
      rw [htargets]
      simp [hfresh]
    refine ⟨fun p => by rw [h1]; simp, by rw [h2, hs, hcount], ?_⟩
    rw [h3, hs, hcount, hnew]
    rfl
  · simp only [if_neg ht] at hroom ⊢
    have hstar : "*" ≠ t := fun h => ht h.symm
    have htargets : targets (Subscribe el t).1 e =
        (el.subs t ++ [el.chans.length]) ++ el.subs "*" := by
      unfold targets
      rw [he, subs_Subscribe_self, subs_Subscribe_of_ne _ _ _ hstar]
    have hnd : (el.subs t ++ [el.chans.length]).Nodup := by
      have := hwf1.2.1 t
      rwa [subs_Subscribe_self] at this
    have hfirst : ∀ c ∈ el.subs t ++ [el.chans.length], ∃ ch,
        (Subscribe el t).1.chans[c]? = some ch ∧ ch.closed = false ∧
        ch.buf.length + (el.subs t ++ [el.chans.length]).count c ≤ ch.cap := by
      intro c hc
      rw [List.count_eq_one_of_mem hnd hc]
      rcases List.mem_append.1 hc with h | h
      · obtain ⟨ch, hg, ho, _⟩ := hwf.1 t c h
        have hr := hroom c h
        simp only [roomAt, hg] at hr
        exact ⟨ch, by rw [hold c h]; exact hg, ho, hr⟩
      · simp only [List.mem_singleton] at h
        subst h
        exact ⟨_, hnew, rfl, by decide⟩
    obtain ⟨f1, f2, f3⟩ :=
      sendAll_spec e (el.subs t ++ [el.chans.length]) (Subscribe el t).1.chans [] hfirst
    have hopen2 : ∀ c ∈ el.subs "*", ∃ ch,
        (sendAll e (el.subs t ++ [el.chans.length]) (Subscribe el t).1.chans []).chans[c]? =
          some ch ∧ ch.closed = false := by
      intro c hc
      have hc1 : c ∈ (Subscribe el t).1.subs "*" := by
        rw [subs_Subscribe_of_ne _ _ _ hstar]; exact hc
      obtain ⟨ch, hg, ho, _⟩ := hwf1.1 "*" c hc1
      have hmap := f3 c
      rw [hg] at hmap
      exact ⟨_, hmap, ho⟩
    obtain ⟨k, _, g2, _, _, _⟩ := sendAll_prefix e (el.subs "*")
      (sendAll e (el.subs t ++ [el.chans.length]) (Subscribe el t).1.chans []).chans
      (sendAll e (el.subs t ++ [el.chans.length]) (Subscribe el t).1.chans []).trace hopen2
    have hnot : el.chans.length ∉ el.subs "*" := fresh_not_mem hwf "*"
    have hpub : publish (Subscribe el t).1 e =
        sendAll e (el.subs "*")
          (sendAll e (el.subs t ++ [el.chans.length]) (Subscribe el t).1.chans []).chans
          (sendAll e (el.subs t ++ [el.chans.length]) (Subscribe el t).1.chans []).trace := by
      rw [publish_eq_sendAll, htargets, sendAll_append, f1]
    rw [hpub, hs]
    refine ⟨fun p => sendAll_no_panic e _ _ _ hopen2 p, ?_, ?_⟩
    · rw [g2, f2]
      have hz : ((el.subs "*").take k).count el.chans.length = 0 :=
        List.count_eq_zero_of_not_mem (fun h => hnot (List.mem_of_mem_take h))
      simp [hfresh, hz]
    · rw [sendAll_unchanged e _ _ _ _ hnot, f3, hnew]
      simp [hfresh]

/-- C1, an instance: a Swap subscription added while the wildcard queue is
full still receives its one copy. -/
theorem subscribe_then_publish_witness :
    Reachable fullWildcardListener ∧ swapEvent.Typ = "Swap" ∧
    (∀ c ∈ fullWildcardListener.subs "Swap",
      roomAt fullWildcardListener.chans c (if "Swap" = "*" then 2 else 1)) ∧
    (publish (Subscribe fullWildcardListener "Swap").1 swapEvent).trace.count
      (Subscribe fullWildcardListener "Swap").2 = (if "Swap" = "*" then 2 else 1) ∧
    (publish (Subscribe fullWildcardListener "Swap").1 swapEvent).chans[
        (Subscribe fullWildcardListener "Swap").2]? =
      some { cap := 10, buf := List.replicate (if "Swap" = "*" then 2 else 1) swapEvent,
             closed := false } :=
  have h := subscribe_then_publish fullWildcardListener "Swap" swapEvent
    reachable_fullWildcardListener rfl (by decide)
  ⟨reachable_fullWildcardListener, rfl, by decide, h.2.1, h.2.2⟩

/-- C1 as stated fails twice. After `Subscribe("*")` on the fresh listener,
publishing an event whose type is `"*"` enqueues two copies on the new
subscription. And in the reachable state where an older Swap subscriber
(channel 0) holds ten events, a new Swap subscription (channel 1) has room
but a published Swap event stalls on channel 0 and no copy is enqueued on
the new one. -/
theorem subscribe_then_publish_fails :
    (starEvent.Typ = "*" ∧ (Subscribe NewEventListener "*").2 = 0 ∧
      (publish (Subscribe NewEventListener "*").1 starEvent).status = .done ∧
      (publish (Subscribe NewEventListener "*").1 starEvent).trace = [0, 0] ∧
      (publish (Subscribe NewEventListener "*").1 starEvent).chans =
        [{ cap := 10, buf := [starEvent, starEvent], closed := false }]) ∧
    (Reachable fullSwapListener ∧ swapEvent.Typ = "Swap" ∧
      (Subscribe fullSwapListener "Swap").2 = 1 ∧
      (Subscribe fullSwapListener "Swap").1.subs "Swap" = [0, 1] ∧
      (publish (Subscribe fullSwapListener "Swap").1 swapEvent).status = .blocked 0 ∧
      (publish (Subscribe fullSwapListener "Swap").1 swapEvent).trace = [] ∧
      (publish (Subscribe fullSwapListener "Swap").1 swapEvent).chans[1]? =
        some { cap := 10, buf := [], closed := false }) :=
  ⟨by decide, reachable_fullSwapListener, by decide, by decide, by decide, by decide,
    by decide, by decide⟩

/-! ## Registry: unsubscribing -/

theorem Detached_Step {el el' : EventListener} {s : Nat} (hd : Detached el s)
    (h : Step el el') : Detached el' s := by
  obtain ⟨⟨ch, hg, hcl⟩, hnot⟩ := hd
  have hlt : s < el.chans.length := (List.getElem?_eq_some.1 hg).1
  cases h with
  | subscribe t =>
    refine ⟨⟨ch, ?_, hcl⟩, ?_⟩
    · rw [chans_Subscribe, List.getElem?_append_left hlt]
      exact hg
    · intro t' hmem
      by_cases ht : t' = t
      · subst ht
        rw [subs_Subscribe_self] at hmem
        rcases List.mem_append.1 hmem with h | h
        · exact hnot _ h
        · simp only [List.mem_singleton] at h
          omega
      · rw [subs_Subscribe_of_ne _ _ _ ht] at hmem
        exact hnot _ hmem
  | unsubscribe _ t c hu =>
    rcases Unsubscribe_returned hu with ⟨_, rfl⟩ | ⟨hmem, c0, _, _, rfl⟩
    · exact ⟨⟨ch, hg, hcl⟩, hnot⟩
    · refine ⟨?_, ?_⟩
      · show ∃ ch, (el.chans.set c { c0 with closed := true })[s]? = some ch ∧ ch.closed = true
        by_cases hcs : c = s
        · subst hcs
          exact ⟨_, List.getElem?_set_self hlt, rfl⟩
        · exact ⟨ch, by rw [List.getElem?_set_ne hcs]; exact hg, hcl⟩
      · intro t' hm
        by_cases ht : t' = t
        · subst ht
          rw [subs_set_self] at hm
          exact hnot _ (List.mem_of_mem_erase hm)
        · rw [subs_set_of_ne _ _ el.chans _ _ _ ht] at hm
          exact hnot _ hm
  | publish e hdone =>
    refine ⟨?_, hnot⟩
    have hsh := sendAll_shape e (targets el e) el.chans [] s
    rw [← publish_eq_sendAll, hg] at hsh
    show ∃ ch, (publish el e).chans[s]? = some ch ∧ ch.closed = true
    cases hp : (publish el e).chans[s]? with
    | none => simp [hp] at hsh
    | some ch' =>
      simp only [hp, Option.map_some', Option.some.injEq, Prod.mk.injEq] at hsh
      exact ⟨ch', rfl, by rw [hsh.2, hcl]⟩
  | recv c =>
    refine ⟨?_, ?_⟩
    · have hsh := recv_shape el c s
      rw [hg] at hsh
      cases hp : (recv el c).chans[s]? with
      | none => simp [hp] at hsh
      | some ch' =>
        simp only [hp, Option.map_some', Option.some.injEq, Prod.mk.injEq] at hsh
        exact ⟨ch', rfl, by rw [hsh.2, hcl]⟩
    · intro t'
      have : (recv el c).subs t' = el.subs t' := by
        simp [EventListener.subs, recv_subscribers]
      rw [this]
      exact hnot t'

theorem Detached_of_steps {el el' : EventListener} {s : Nat} (hd : Detached el s)
    (h : Relation.ReflTransGen Step el el') : Detached el' s := by
  induction h with
  | refl => exact hd
  | tail _ hstep ih => exact Detached_Step ih hstep

/-- In a well-formed state `publish` sends nothing to a detached channel,
leaves its queue alone and does not panic. -/
theorem publish_detached (el : EventListener) (e : Event) (s : Nat) (hwf : WF el)
    (hd : Detached el s) :
    s ∉ (publish el e).trace ∧ (∀ p, (publish el e).status ≠ .panicked p) ∧
    (publish el e).chans[s]? = el.chans[s]? := by
  have hnot : s ∉ targets el e := by
    intro h
    rcases List.mem_append.1 h with h | h
    · exact hd.2 _ h
    · exact hd.2 _ h
  rw [publish_eq_sendAll]
  refine ⟨?_, ?_, sendAll_unchanged e _ _ _ s hnot⟩
  · intro h
    rcases sendAll_trace_subset e _ _ _ s h with h | h
    · simp at h
    · exact hnot h
  · intro p
    apply sendAll_no_panic
    intro c hc
    rcases List.mem_append.1 hc with h | h
    · obtain ⟨ch, hg, ho, _⟩ := hwf.1 _ c h
      exact ⟨ch, hg, ho⟩
    · obtain ⟨ch, hg, ho, _⟩ := hwf.1 _ c h
      exact ⟨ch, hg, ho⟩

/-- C3: in a reachable state, `Unsubscribe(t, s)` of a subscription `s`
registered under `t` returns; afterwards the queue of `s` is closed and `s`
is in no list of the registry; the list of `t` is the old one without `s`,
in the same order, and every other list is unchanged; and in every state
reached later a `publish` of any event sends nothing to `s`, leaves its
queue as it is and does not panic on a closed queue, `s` staying closed. -/
theorem unsubscribe_then_publish (el : EventListener) (t : String) (s : Nat)
    (hreach : Reachable el) (hs : s ∈ el.subs t) :
    ∃ el', Unsubscribe el t s = .returned el' ∧
      (∃ ch, el'.chans[s]? = some ch ∧ ch.closed = true) ∧
      (∀ t', s ∉ el'.subs t') ∧
      el'.subs t = (el.subs t).filter (fun c => c != s) ∧
      (∀ t', t' ≠ t → el'.subs t' = el.subs t') ∧
      (∀ el2, Relation.ReflTransGen Step el' el2 → ∀ e : Event,
        s ∉ (publish el2 e).trace ∧
        (∀ p, (publish el2 e).status ≠ .panicked p) ∧
        (publish el2 e).chans[s]? = el2.chans[s]? ∧
        (∃ ch, el2.chans[s]? = some ch ∧ ch.closed = true)) := by
  have hwf := hreach.wf
  obtain ⟨c0, hg, hopen, _⟩ := hwf.1 t s hs
  have hlt : s < el.chans.length := (List.getElem?_eq_some.1 hg).1
  have hu := Unsubscribe_of_mem el t s c0 hs hg hopen
  have hwf' := WF_Unsubscribe hwf hu
  have hsub_t : EventListener.subs
      { subscribers := GoMap.set el.subscribers t ((el.subs t).erase s),
        chans := el.chans.set s { c0 with closed := true } } t = (el.subs t).erase s :=
    subs_set_self _ _ _ _
  have hsub_ne : ∀ t', t' ≠ t → EventListener.subs
      { subscribers := GoMap.set el.subscribers t ((el.subs t).erase s),
        chans := el.chans.set s { c0 with closed := true } } t' = el.subs t' :=
    fun t' ht => subs_set_of_ne _ _ el.chans _ _ _ ht
  have hdet : Detached
      { subscribers := GoMap.set el.subscribers t ((el.subs t).erase s),
        chans := el.chans.set s { c0 with closed := true } } s := by
    refine ⟨⟨_, List.getElem?_set_self hlt, rfl⟩, ?_⟩
    intro t' hm
    by_cases ht : t' = t
    · subst ht
      rw [hsub_t] at hm
      exact ((hwf.2.1 t').mem_erase_iff.1 hm).1 rfl
    · rw [hsub_ne t' ht] at hm
      exact hwf.2.2 t' t ht s hm hs
  refine ⟨_, hu, hdet.1, hdet.2, ?_, hsub_ne, ?_⟩
  · rw [hsub_t, (hwf.2.1 t).erase_eq_filter]
  · intro el2 hsteps e
    have hd2 := Detached_of_steps hdet hsteps
    have hwf2 := WF_of_steps hwf' hsteps
    obtain ⟨a, b, c⟩ := publish_detached el2 e s hwf2 hd2
    exact ⟨a, b, c, hd2.1⟩

/-- C3, an instance: the Swap subscriber of the two-subscriber listener. -/
theorem unsubscribe_then_publish_witness :
    Reachable twoSubscribers ∧ 1 ∈ twoSubscribers.subs "Swap" ∧
    ∃ el', Unsubscribe twoSubscribers "Swap" 1 = .returned el' ∧
      (∃ ch, el'.chans[1]? = some ch ∧ ch.closed = true) ∧
      (∀ t', 1 ∉ el'.subs t') ∧
      el'.subs "Swap" = (twoSubscribers.subs "Swap").filter (fun c => c != 1) ∧
      (∀ t', t' ≠ "Swap" → el'.subs t' = twoSubscribers.subs t') ∧
      (∀ el2, Relation.ReflTransGen Step el' el2 → ∀ e : Event,
        1 ∉ (publish el2 e).trace ∧
        (∀ p, (publish el2 e).status ≠ .panicked p) ∧
        (publish el2 e).chans[1]? = el2.chans[1]? ∧
        (∃ ch, el2.chans[1]? = some ch ∧ ch.closed = true)) :=
  ⟨reachable_twoSubscribers, by decide,
    unsubscribe_then_publish twoSubscribers "Swap" 1 reachable_twoSubscribers (by decide)⟩

/-! ## Registry: subscribe order -/

/-- In a well-formed state `Unsubscribe` always returns; it erases the
channel from the list of the topic and touches no other list. -/
theorem Unsubscribe_total {el : EventListener} (hwf : WF el) (t : String) (ch : Nat) :
    ∃ el', Unsubscribe el t ch = .returned el' ∧ el'.subs t = (el.subs t).erase ch ∧
      (∀ t', t' ≠ t → el'.subs t' = el.subs t') ∧ el'.chans.length = el.chans.length := by
  by_cases hmem : ch ∈ el.subs t
  · obtain ⟨c0, hg, hopen, _⟩ := hwf.1 t ch hmem
    refine ⟨_, Unsubscribe_of_mem el t ch c0 hmem hg hopen, subs_set_self _ _ _ _,
      fun t' ht => subs_set_of_ne _ _ el.chans _ _ _ ht, ?_⟩
    simp
  · exact ⟨el, Unsubscribe_of_not_mem el t ch hmem, (List.erase_of_not_mem hmem).symm,
      fun _ _ => rfl, rfl⟩

theorem subscribeOrder_append_self (t : String) (log : List (String × Nat)) (c : Nat) :
    subscribeOrder t (log ++ [(t, c)]) = subscribeOrder t log ++ [c] := by
  simp [subscribeOrder, List.filter_append]

theorem subscribeOrder_append_of_ne (t t' : String) (log : List (String × Nat)) (c : Nat)
    (h : t' ≠ t) : subscribeOrder t' (log ++ [(t, c)]) = subscribeOrder t' log := by
  simp [subscribeOrder, List.filter_append, Ne.symm h]

theorem subscribeOrder_sublist (t : String) (log : List (String × Nat)) :
    (subscribeOrder t log).Sublist (log.map Prod.snd) :=
  (List.filter_sublist log).map Prod.snd

/-- Running calls from a well-formed state whose lists are in the order of
the log never panics and keeps all of that. -/
theorem runOps_invariant (ops : List Op) (el : EventListener) (log : List (String × Nat))
    (hwf : WF el) (hsub : ∀ t, (el.subs t).Sublist (subscribeOrder t log))
    (hlt : ∀ p ∈ log, p.2 < el.chans.length) (hnd : (log.map Prod.snd).Nodup) :
    ∃ el' log', runOps ops (el, log) = .returned (el', log') ∧ WF el' ∧
      (∀ t, (el'.subs t).Sublist (subscribeOrder t log')) ∧
      (∀ p ∈ log', p.2 < el'.chans.length) ∧ (log'.map Prod.snd).Nodup := by
  induction ops generalizing el log with
  | nil => exact ⟨el, log, rfl, hwf, hsub, hlt, hnd⟩
  | cons op ops ih =>
    cases op with
    | subscribe t =>
      have hrun : runOps (Op.subscribe t :: ops) (el, log) =
          runOps ops ((Subscribe el t).1, log ++ [(t, (Subscribe el t).2)]) := rfl
      rw [hrun]
      apply ih _ _ (WF_Subscribe hwf t)
      · intro t'
        by_cases ht : t' = t
        · subst ht
          rw [subs_Subscribe_self, subscribeOrder_append_self]
          exact (hsub t').append (List.Sublist.refl _)
        · rw [subs_Subscribe_of_ne _ _ _ ht, subscribeOrder_append_of_ne _ _ _ _ ht]
          exact hsub t'
      · intro p hp
        rw [chans_Subscribe, List.length_append, List.length_singleton]
        rcases List.mem_append.1 hp with h | h
        · exact Nat.lt_succ_of_lt (hlt p h)
        · simp only [List.mem_singleton] at h
          subst h
          exact Nat.lt_succ_self _
      · rw [List.map_append]
        refine List.Nodup.append hnd (List.nodup_singleton _) ?_
        intro c h1 h2
        simp only [List.map_cons, List.map_nil, List.mem_singleton] at h2
        obtain ⟨p, hp, hpc⟩ := List.mem_map.1 h1
        have := hlt p hp
        rw [hpc, h2] at this
        exact Nat.lt_irrefl _ this
    | unsubscribe t ch =>
      obtain ⟨el1, hu, h1, h2, h3⟩ := Unsubscribe_total hwf t ch
      have hrun : runOps (Op.unsubscribe t ch :: ops) (el, log) = runOps ops (el1, log) := by
        simp [runOps, hu]
      rw [hrun]
      apply ih _ _ (WF_Unsubscribe hwf hu)
      · intro t'
        by_cases ht : t' = t
        · subst ht
          rw [h1]
          exact (List.erase_sublist _ _).trans (hsub t')
        · rw [h2 t' ht]
          exact hsub t'
      · intro p hp
        rw [h3]
        exact hlt p hp
      · exact hnd

/-- C10: every sequence of `Subscribe` and `Unsubscribe` calls from the
fresh listener returns without panic, and in the state reached each topic's
list is a sublist of the channels returned by the `Subscribe` calls for that
topic in call order, which are pairwise distinct, so the list is in
subscribe order and holds no subscription twice; there `Subscribe(t)`
appends a channel found in no list, allocated as an empty open queue of
capacity 10, at the end of the list of `t`, and leaves every other list and
every existing channel unchanged. -/
theorem registry_invariant (ops : List Op) :
    ∃ el log, runOps ops (NewEventListener, []) = .returned (el, log) ∧
      (∀ t, (el.subs t).Sublist (subscribeOrder t log) ∧ (subscribeOrder t log).Nodup ∧
        (el.subs t).Nodup) ∧
      (∀ t, (Subscribe el t).1.subs t = el.subs t ++ [(Subscribe el t).2] ∧
        (∀ t', t' ≠ t → (Subscribe el t).1.subs t' = el.subs t') ∧
        (∀ t', (Subscribe el t).2 ∉ el.subs t') ∧
        (Subscribe el t).1.chans[(Subscribe el t).2]? =
          some { cap := 10, buf := [], closed := false } ∧
        el.chans[(Subscribe el t).2]? = none ∧
        (∀ c : Nat, c < el.chans.length → (Subscribe el t).1.chans[c]? = el.chans[c]?)) := by
  obtain ⟨el, log, hrun, hwf, hsub, _, hnd⟩ :=
    runOps_invariant ops NewEventListener [] WF_new
      (by intro t; simp [NewEventListener, EventListener.subs, GoMap.get, subscribeOrder])
      (by simp) (by simp)
  refine ⟨el, log, hrun, ?_, ?_⟩
  · intro t
    exact ⟨hsub t, hnd.sublist (subscribeOrder_sublist t log), hwf.2.1 t⟩
  · intro t
    refine ⟨subs_Subscribe_self el t, fun t' ht => subs_Subscribe_of_ne el t t' ht,
      fun t' => fresh_not_mem hwf t', ?_, ?_, ?_⟩
    · rw [chans_Subscribe]
      exact List.getElem?_concat_length _ _
    · exact List.getElem?_eq_none (Nat.le_refl _)
    · intro c hc
      rw [chans_Subscribe, List.getElem?_append_left hc]

theorem GoResult.bind_eq_returned {α β : Type} {r : GoResult α} {f : α → GoResult β} {b : β}
    (h : (r >>= f) = .returned b) : ∃ a, r = .returned a ∧ f a = .returned b := by
  cases r with
  | returned a => exact ⟨a, rfl, h⟩
  | panicked p => simp at h

/-- A successfully decoded event has one of the three known types. -/
theorem parseEvent_type (addressHex : Address → String) (vLog : Log) (ev : Event)
    (h : parseEvent addressHex vLog = .returned (ev, none)) :
    ev.Typ = "LiquidityAdded" ∨ ev.Typ = "LiquidityRemoved" ∨ ev.Typ = "Swap" := by
  unfold parseEvent at h
  obtain ⟨t0, -, h⟩ := GoResult.bind_eq_returned h
  split at h
  · obtain ⟨t1, -, h⟩ := GoResult.bind_eq_returned h
    obtain ⟨d0, -, h⟩ := GoResult.bind_eq_returned h
    obtain ⟨d1, -, h⟩ := GoResult.bind_eq_returned h
    obtain ⟨d2, -, h⟩ := GoResult.bind_eq_returned h
    simp only [GoResult.pure_eq, GoResult.returned.injEq, Prod.mk.injEq] at h
    left
    rw [← h.1]
    rfl
  · split at h
    · obtain ⟨t1, -, h⟩ := GoResult.bind_eq_returned h
      obtain ⟨d0, -, h⟩ := GoResult.bind_eq_returned h
      obtain ⟨d1, -, h⟩ := GoResult.bind_eq_returned h
      obtain ⟨d2, -, h⟩ := GoResult.bind_eq_returned h
      simp only [GoResult.pure_eq, GoResult.returned.injEq, Prod.mk.injEq] at h
      right; left
      rw [← h.1]
      rfl
    · split at h
      · obtain ⟨t1, -, h⟩ := GoResult.bind_eq_returned h
        obtain ⟨d0, -, h⟩ := GoResult.bind_eq_returned h
        obtain ⟨d1, -, h⟩ := GoResult.bind_eq_returned h
        obtain ⟨b, -, h⟩ := GoResult.bind_eq_returned h
        simp only [GoResult.pure_eq, GoResult.returned.injEq, Prod.mk.injEq] at h
        right; right
        rw [← h.1]
        rfl
      · simp at h

/-! ## Listener loop -/

theorem count_targets (el : EventListener) (hwf : WF el) (e : Event) (c : Nat) :
    (targets el e).count c =
      (if c ∈ el.subs e.Typ then 1 else 0) + (if c ∈ el.subs "*" then 1 else 0) := by
  have hcount : ∀ t, (el.subs t).count c = if c ∈ el.subs t then 1 else 0 := by
    intro t
    by_cases h : c ∈ el.subs t
    · rw [if_pos h]; exact List.count_eq_one_of_mem (hwf.2.1 t) h
    · rw [if_neg h]; exact List.count_eq_zero_of_not_mem h
  simp only [targets, List.count_append, hcount]

theorem decoded_cons (addressHex : Address → String) (r : Log) (rs : List Log) :
    decoded addressHex (r :: rs) =
      match parseEvent addressHex r with
      | .returned (event, none) => event :: decoded addressHex rs
      | _ => decoded addressHex rs := by
  unfold decoded
  rw [List.filterMap_cons]
  cases hp : parseEvent addressHex r with
  | panicked p => rfl
  | returned res =>
    obtain ⟨ev, err⟩ := res
    cases err <;> rfl

/-- On records that do not make the decoder panic, with room in the
registered queues, the loop publishes exactly the decoded events in stream
order and is then waiting for the next record; every wildcard queue gains
all of them and every queue under a type gains those of that type, in that
order. -/
theorem startLoop_spec (addressHex : Address → String) (records : List Log)
    (el : EventListener) (pub : List Event) (hwf : WF el)
    (hok : ∀ r ∈ records, ∀ p, parseEvent addressHex r ≠ .panicked p)
    (hroom : ∀ t, ∀ c ∈ el.subs t, roomAt el.chans c (decoded addressHex records).length) :
    ∃ heap, startLoop addressHex (records.map StreamItem.log) el pub =
        { el := { el with chans := heap }, published := pub ++ decoded addressHex records,
          outcome := .waiting } ∧
      (∀ c ∈ el.subs "*", heap[c]? = (el.chans[c]?).map (fun ch =>
        { ch with buf := ch.buf ++ decoded addressHex records })) ∧
      (∀ t, t ≠ "*" → ∀ c ∈ el.subs t, heap[c]? = (el.chans[c]?).map (fun ch =>
        { ch with buf := ch.buf ++
            (decoded addressHex records).filter (fun ev => decide (ev.Typ = t)) })) := by
  induction records generalizing el pub with
  | nil =>
    refine ⟨el.chans, by simp [startLoop, decoded], ?_, ?_⟩
    · intro c _
      cases hx : el.chans[c]? <;> simp [decoded]
    · intro t _ c _
      cases hx : el.chans[c]? <;> simp [decoded]
  | cons r rs ih =>
    have hok' : ∀ r' ∈ rs, ∀ p, parseEvent addressHex r' ≠ .panicked p :=
      fun r' hr' => hok r' (List.mem_cons_of_mem _ hr')
    have hdec := decoded_cons addressHex r rs
    cases hp : parseEvent addressHex r with
    | panicked p => exact absurd hp (hok r (List.mem_cons_self _ _) p)
    | returned res =>
      obtain ⟨ev, err⟩ := res
      cases err with
      | some msg =>
        rw [hp] at hdec
        simp only at hdec
        rw [hdec] at hroom ⊢
        obtain ⟨heap, h1, h2, h3⟩ := ih el pub hwf hok' hroom
        refine ⟨heap, ?_, h2, h3⟩
        simp only [List.map_cons, startLoop, hp]
        exact h1
      | none =>
        rw [hp] at hdec
        simp only at hdec
        rw [hdec] at hroom ⊢
        have hty : ev.Typ ≠ "*" := by
          rcases parseEvent_type addressHex r ev hp with h | h | h <;> rw [h] <;> decide
        have hcnt := count_targets el hwf ev
        have hle : ∀ c, (targets el ev).count c ≤ 1 ∨
            (c ∈ el.subs ev.Typ ∧ c ∈ el.subs "*") := by
          intro c
          rw [hcnt c]
          by_cases a : c ∈ el.subs ev.Typ <;> by_cases b : c ∈ el.subs "*" <;> simp [a, b]
        have hone : ∀ c, (targets el ev).count c ≤ 1 := by
          intro c
          rcases hle c with h | ⟨a, b⟩
          · exact h
          · exact absurd b (hwf.2.2 _ _ hty c a)
        have hr : HasRoom el ev := by
          intro c hc
          have hroomc : roomAt el.chans c (ev :: decoded addressHex rs).length := by
            rcases List.mem_append.1 hc with h | h
            · exact hroom _ c h
            · exact hroom _ c h
          unfold roomAt at hroomc ⊢
          cases hx : el.chans[c]? with
          | none => simp [hx] at hroomc
          | some ch =>
            simp only [hx, List.length_cons] at hroomc ⊢
            have := hone c
            omega
        obtain ⟨p1, p2, p3⟩ := publish_of_wf el ev hwf hr
        have hwf1 : WF { el with chans := (publish el ev).chans } :=
          WF_Step hwf (Step.publish el ev p1)
        have hroom1 : ∀ t, ∀ c ∈ EventListener.subs
            { el with chans := (publish el ev).chans } t,
            roomAt (publish el ev).chans c (decoded addressHex rs).length := by
          intro t c hc
          have hc' : c ∈ el.subs t := hc
          have hroomc := hroom t c hc'
          unfold roomAt at hroomc ⊢
          rw [p3 c]
          cases hx : el.chans[c]? with
          | none => simp [hx] at hroomc
          | some ch =>
            simp only [hx, List.length_cons, Option.map_some', List.length_append,
              List.length_replicate] at hroomc ⊢
            have := hone c
            omega
        obtain ⟨heap, h1, h2, h3⟩ :=
          ih { el with chans := (publish el ev).chans } (pub ++ [ev]) hwf1 hok' hroom1
        refine ⟨heap, ?_, ?_, ?_⟩
        · simp only [List.map_cons, startLoop, hp, p1]
          rw [h1]
          simp
        · intro c hc
          have hc1 : c ∉ el.subs ev.Typ := fun a => hwf.2.2 _ _ hty c a hc
          rw [h2 c hc]
          show Option.map _ ((publish el ev).chans[c]?) = _
          rw [p3 c, hcnt c, if_neg hc1, if_pos hc]
          cases hx : el.chans[c]? <;> simp
        · intro t ht c hc
          have hc0 : c ∉ el.subs "*" := hwf.2.2 _ _ ht c hc
          rw [h3 t ht c hc]
          show Option.map _ ((publish el ev).chans[c]?) = _
          rw [p3 c, hcnt c, if_neg hc0]
          by_cases hty2 : ev.Typ = t
          · rw [hty2, if_pos hc]
            cases hx : el.chans[c]? <;> simp [hty2]
          · have hc2 : c ∉ el.subs ev.Typ := fun a => hwf.2.2 _ _ hty2 c a hc
            rw [if_neg hc2]
            cases hx : el.chans[c]? <;> simp [hty2]

theorem GoMap.mem_of_get {κ α : Type} [DecidableEq κ] (m : GoMap κ α) (k : κ) (v : α)
    (h : GoMap.get m k = some v) : (k, v) ∈ m := by
  induction m with
  | nil => simp [GoMap.get] at h
  | cons p rest ih =>
    obtain ⟨k0, v0⟩ := p
    by_cases hk : k0 = k
    · simp [GoMap.get, hk] at h
      simp [hk, h]
    · simp only [GoMap.get, hk, if_false] at h
      exact List.mem_cons_of_mem _ (ih h)

theorem mem_registered (el : EventListener) (t : String) (c : Nat) (h : c ∈ el.subs t) :
    c ∈ el.registered := by
  unfold EventListener.subs at h
  cases hg : GoMap.get el.subscribers t with
  | none => simp [hg] at h
  | some l =>
    simp only [hg, Option.getD_some] at h
    have hm := GoMap.mem_of_get _ _ _ hg
    unfold EventListener.registered
    generalize el.subscribers = m at hm
    induction m with
    | nil => simp at hm
    | cons p rest ih =>
      simp only [List.map_cons, List.foldr_cons, List.mem_append]
      rcases List.mem_cons.1 hm with h1 | h1
      · left; rw [← h1]; exact h
      · right; exact ih h1

/-- On a stream of records none of which
makes the decoder panic, with no cancellation or stream error and room in
the queues, `Start` publishes exactly the successfully decoded events in
stream order, records that fail with a decode error being skipped, and each
wildcard subscriber's queue gains that sequence. -/
theorem Start_publishes_decoded (addressHex : Address → String) (records : List Log)
    (el : EventListener) (hreach : Reachable el)
    (hok : ∀ r ∈ records, (parseEvent addressHex r).Returns)
    (hroom : ∀ c ∈ el.registered, roomAt el.chans c (decoded addressHex records).length) :
    (Start addressHex el none (records.map StreamItem.log)).published =
      decoded addressHex records ∧
    (Start addressHex el none (records.map StreamItem.log)).outcome = .waiting ∧
    (Start addressHex el none (records.map StreamItem.log)).el.subscribers = el.subscribers ∧
    ∀ c ∈ el.subs "*",
      (Start addressHex el none (records.map StreamItem.log)).el.chans[c]? =
        (el.chans[c]?).map (fun ch => { ch with buf := ch.buf ++ decoded addressHex records }) := by
  have hok' : ∀ r ∈ records, ∀ p, parseEvent addressHex r ≠ .panicked p := by
    intro r hr p hp
    have := hok r hr
    rw [hp] at this
    exact this
  obtain ⟨heap, h1, h2, _⟩ := startLoop_spec addressHex records el [] hreach.wf hok'
    (fun t c hc => hroom c (mem_registered el t c hc))
  refine ⟨?_, ?_, ?_, ?_⟩
  · simp [Start, h1]
  · simp [Start, h1]
  · simp [Start, h1]
  · intro c hc
    simp only [Start, h1]
    exact h2 c hc

/-- An instance: an undecodable record between two Swap records is skipped
and the two Swap events reach the wildcard subscriber in order. -/
theorem Start_publishes_decoded_witness :
    (Start plainHex wildcardOnly none
      ([swapFixture 1, unknownFixture, swapFixture 0].map StreamItem.log)).published =
      decoded plainHex [swapFixture 1, unknownFixture, swapFixture 0] ∧
    (Start plainHex wildcardOnly none
      ([swapFixture 1, unknownFixture, swapFixture 0].map StreamItem.log)).outcome =
      .waiting :=
  have h := Start_publishes_decoded plainHex [swapFixture 1, unknownFixture, swapFixture 0]
    wildcardOnly (Relation.ReflTransGen.tail Relation.ReflTransGen.refl (Step.subscribe _ "*"))
    (by decide) (by decide)
  ⟨h.1, h.2.1⟩

/-- C9, the code on a malformed record: a record without topics makes the
loop panic; nothing is published, the wildcard queue stays empty and the
valid Swap record behind it is never decoded, although alone it is
published. -/
theorem Start_panics_on_malformed_record :
    (Start plainHex wildcardOnly none
      [.log noTopicFixture, .log (swapFixture 1)]).outcome =
      .panicked (.indexOutOfRange 0 0) ∧
    (Start plainHex wildcardOnly none
      [.log noTopicFixture, .log (swapFixture 1)]).published = [] ∧
    (Start plainHex wildcardOnly none
      [.log noTopicFixture, .log (swapFixture 1)]).el.chans =
      [{ cap := 10, buf := [], closed := false }] ∧
    decoded plainHex [noTopicFixture, swapFixture 1] = [swapEvent] ∧
    (Start plainHex wildcardOnly none [.log (swapFixture 1)]).published = [swapEvent] ∧
    (Start plainHex wildcardOnly none [.log (swapFixture 1)]).el.chans =
      [{ cap := 10, buf := [swapEvent], closed := false }] := by
  decide

/-! ## Broadcast to the live connections -/

theorem GoMap.get_delete_of_ne {κ α : Type} [DecidableEq κ] (m : GoMap κ α) (k k' : κ)
    (h : k' ≠ k) : GoMap.get (GoMap.delete m k) k' = GoMap.get m k' := by
  induction m with
  | nil => rfl
  | cons p rest ih =>
    obtain ⟨k0, v0⟩ := p
    have hd : GoMap.delete ((k0, v0) :: rest) k =
        if k0 = k then GoMap.delete rest k else (k0, v0) :: GoMap.delete rest k := by
      unfold GoMap.delete
      by_cases h0 : k0 = k <;> simp [List.filter_cons, h0]
    rw [hd]
    by_cases h0 : k0 = k
    · rw [if_pos h0, ih]
      subst h0
      simp [GoMap.get, Ne.symm h]
    · rw [if_neg h0]
      by_cases h1 : k0 = k' <;> simp [GoMap.get, h1, ih]

theorem GoMap.get_of_mem_keys {κ α : Type} [DecidableEq κ] (m : GoMap κ α) (k : κ)
    (h : k ∈ GoMap.keys m) : ∃ v, GoMap.get m k = some v := by
  induction m with
  | nil => simp [GoMap.keys] at h
  | cons p rest ih =>
    obtain ⟨k0, v0⟩ := p
    by_cases h0 : k0 = k
    · exact ⟨v0, by simp [GoMap.get, h0]⟩
    · have : k ∈ GoMap.keys rest := by
        simp only [GoMap.keys, List.map_cons, List.mem_cons] at h
        rcases h with h | h
        · exact absurd h.symm h0
        · exact h
      obtain ⟨v, hv⟩ := ih this
      exact ⟨v, by simp [GoMap.get, h0, hv]⟩

/-- One pass over distinct connections that are all in the set: each is
sent to once, in order; the failing ones are closed and deleted and nothing
else leaves the set. -/
theorem broadcastLoop_spec (writeJSON : Nat → Event → Option String) (event : Event)
    (l : List Nat) (r : BroadcastRun) (hnd : l.Nodup)
    (hpres : ∀ c ∈ l, ∃ v, GoMap.get r.clients c = some v) :
    broadcastLoop writeJSON event l r =
      { clients := r.clients.filter
          (fun p => decide (p.1 ∈ l → writeJSON p.1 event = none)),
        sent := r.sent ++ l,
        closed := r.closed ++ l.filter (fun c => (writeJSON c event).isSome) } := by
  induction l generalizing r with
  | nil => simp [broadcastLoop]
  | cons c rest ih =>
    obtain ⟨v, hv⟩ := hpres c (List.mem_cons_self _ _)
    have hnd' : rest.Nodup := (List.nodup_cons.1 hnd).2
    have hc : c ∉ rest := (List.nodup_cons.1 hnd).1
    cases hw : writeJSON c event with
    | none =>
      simp only [broadcastLoop, hv, hw]
      rw [ih { r with sent := r.sent ++ [c] } hnd'
        (fun c' hc' => hpres c' (List.mem_cons_of_mem _ hc'))]
      simp only [BroadcastRun.mk.injEq, List.append_assoc, List.singleton_append, true_and]
      refine ⟨?_, by simp [List.filter_cons, hw]⟩
      apply List.filter_congr
      intro p _
      by_cases hpc : p.1 = c
      · simp [hpc, hw, hc]
      · simp [hpc]
    | some msg =>
      simp only [broadcastLoop, hv, hw]
      rw [ih _ hnd']
      · simp only [BroadcastRun.mk.injEq, List.append_assoc, List.singleton_append, true_and]
        refine ⟨?_, by simp [List.filter_cons, hw]⟩
        unfold GoMap.delete
        rw [List.filter_filter]
        apply List.filter_congr
        intro p _
        by_cases hpc : p.1 = c
        · simp [hpc, hw]
        · simp [hpc]
      · intro c' hc'
        have hne : c' ≠ c := fun h => hc (h ▸ hc')
        obtain ⟨v', hv'⟩ := hpres c' (List.mem_cons_of_mem _ hc')
        exact ⟨v', by simp only [GoMap.get_delete_of_ne _ _ _ hne]; exact hv'⟩

/-- C7: whatever the send outcomes and in whatever order the runtime ranges
over the connection set, one `broadcastToClients` call attempts the send
exactly once on every connection of the set and on no other, failures on
some not preventing the sends to the rest; afterwards the set is exactly
its members whose send succeeded, and the connections closed are exactly
those whose send failed. -/
theorem broadcast_isolation (writeJSON : Nat → Event → Option String) (h : Handlers)
    (order : List Nat) (event : Event) (hkeys : (GoMap.keys h.clients).Nodup)
    (horder : order.Perm (GoMap.keys h.clients)) :
    (broadcastToClients writeJSON h order event).sent = order ∧
    (∀ c ∈ GoMap.keys h.clients,
      (broadcastToClients writeJSON h order event).sent.count c = 1) ∧
    (∀ c, c ∉ GoMap.keys h.clients →
      c ∉ (broadcastToClients writeJSON h order event).sent) ∧
    (broadcastToClients writeJSON h order event).clients =
      h.clients.filter (fun p => (writeJSON p.1 event).isNone) ∧
    (broadcastToClients writeJSON h order event).closed =
      order.filter (fun c => (writeJSON c event).isSome) ∧
    (∀ c, c ∈ GoMap.keys (broadcastToClients writeJSON h order event).clients ↔
      c ∈ GoMap.keys h.clients ∧ writeJSON c event = none) ∧
    (∀ c, c ∈ (broadcastToClients writeJSON h order event).closed ↔
      c ∈ GoMap.keys h.clients ∧ writeJSON c event ≠ none) := by
  have hnd : order.Nodup := horder.nodup_iff.2 hkeys
  have hpres : ∀ c ∈ order, ∃ v, GoMap.get h.clients c = some v :=
    fun c hc => GoMap.get_of_mem_keys _ _ (horder.mem_iff.1 hc)
  have hrun := broadcastLoop_spec writeJSON event order
    { clients := h.clients, sent := [], closed := [] } hnd hpres
  have hclients : (broadcastToClients writeJSON h order event).clients =
      h.clients.filter (fun p => (writeJSON p.1 event).isNone) := by
    unfold broadcastToClients
    rw [hrun]
    apply List.filter_congr
    intro p hp
    have hmem : p.1 ∈ order := horder.mem_iff.2 (List.mem_map_of_mem Prod.fst hp)
    cases hw : writeJSON p.1 event <;> simp [hmem, hw]
  have hsent : (broadcastToClients writeJSON h order event).sent = order := by
    unfold broadcastToClients
    rw [hrun]
    simp
  have hclosed : (broadcastToClients writeJSON h order event).closed =
      order.filter (fun c => (writeJSON c event).isSome) := by
    unfold broadcastToClients
    rw [hrun]
    simp
  refine ⟨hsent, ?_, ?_, hclients, hclosed, ?_, ?_⟩
  · intro c hc
    rw [hsent]
    exact List.count_eq_one_of_mem hnd (horder.mem_iff.2 hc)
  · intro c hc hs
    rw [hsent] at hs
    exact hc (horder.mem_iff.1 hs)
  · intro c
    rw [hclients]
    simp only [GoMap.keys, List.mem_map, List.mem_filter, Option.isNone_iff_eq_none]
    constructor
    · rintro ⟨p, ⟨hp, hw⟩, rfl⟩
      exact ⟨⟨p, hp, rfl⟩, hw⟩
    · rintro ⟨⟨p, hp, rfl⟩, hw⟩
      exact ⟨p, ⟨hp, hw⟩, rfl⟩
  · intro c
    rw [hclosed]
    simp only [List.mem_filter, horder.mem_iff, Option.isSome_iff_ne_none, ne_eq]

/-- C7, the two-connection case: A fails, B succeeds; both are sent to, A
is closed and the set is left as B alone. -/
theorem broadcast_isolation_witness :
    (GoMap.keys twoClients.clients).Nodup ∧
    [1, 2].Perm (GoMap.keys twoClients.clients) ∧
    (broadcastToClients failFirst twoClients [1, 2] swapEvent).sent = [1, 2] ∧
    (broadcastToClients failFirst twoClients [1, 2] swapEvent).clients = [(2, true)] ∧
    (broadcastToClients failFirst twoClients [1, 2] swapEvent).closed = [1] :=
  have h := broadcast_isolation failFirst twoClients [1, 2] swapEvent (by decide)
    (List.Perm.refl _)
  ⟨by decide, List.Perm.refl _, h.1, h.2.2.2.1, h.2.2.2.2.1⟩

end Web3DeFi
